import Mathlib

/-!
# Machahir-Bot: the name matchers

A shallow embedding of `src/services/enhancedFuzzyMatcher.js`,
`src/services/fuzzyMatcher.js` and the pure helpers of
`src/services/wikipediaService.js`.

Strings are lists of Unicode code points (`List Char`).  Every character the
two matchers inspect or produce lies in the Basic Multilingual Plane, so
code points and UTF-16 code units coincide on them.  `toLowerCase` is modelled
on the ASCII letters `A`..`Z` (every other character is left as it is): the
name tables of the repository are ASCII and Arabic, and Arabic has no case.

Fuse.js is an external library.  The approximate search is a parameter of the
matchers: a function from the candidate list and the pattern to the ranked
results, each carrying the item and its Fuse score.
-/

set_option autoImplicit false

namespace Machahir

/-! ## JavaScript string primitives -/

/-- White space as `String.prototype.trim` and the regex class `\s` see it. -/
def isWhiteSpace (c : Char) : Bool :=
  let n := c.toNat
  n == 0x20 || n == 0x09 || n == 0x0A || n == 0x0B || n == 0x0C || n == 0x0D ||
  n == 0xA0 || n == 0x1680 || (0x2000 ≤ n && n ≤ 0x200A) || n == 0x2028 ||
  n == 0x2029 || n == 0x202F || n == 0x205F || n == 0x3000 || n == 0xFEFF

/-- The regex class `\w`: ASCII letters, digits and the underscore. -/
def isWordChar (c : Char) : Bool :=
  let n := c.toNat
  (0x61 ≤ n && n ≤ 0x7A) || (0x41 ≤ n && n ≤ 0x5A) || (0x30 ≤ n && n ≤ 0x39) || n == 0x5F

/-- One character of `toLowerCase`: `A`..`Z` go to `a`..`z`. -/
def lowerChar (c : Char) : Char :=
  if 0x41 ≤ c.toNat ∧ c.toNat ≤ 0x5A then Char.ofNat (c.toNat + 32) else c

/-- `String.prototype.toLowerCase`. -/
def toLowerCase (s : List Char) : List Char := s.map lowerChar

/-- `String.prototype.trimStart`. -/
def trimStart (s : List Char) : List Char := s.dropWhile isWhiteSpace

/-- `String.prototype.trim`. -/
def trim (s : List Char) : List Char :=
  (trimStart (trimStart s).reverse).reverse

/-- Global replacement of a literal pattern, `s.replace(new RegExp(pat, 'g'), rep)`:
the string is scanned from the left, a match is replaced and the scan resumes
right after it.  The counter is the number of characters of the current match
still to be skipped. -/
def replaceAllAux (pat rep : List Char) : Nat → List Char → List Char
  | _, [] => []
  | k + 1, _ :: cs => replaceAllAux pat rep k cs
  | 0, c :: cs =>
    if pat.isPrefixOf (c :: cs) then rep ++ replaceAllAux pat rep (pat.length - 1) cs
    else c :: replaceAllAux pat rep 0 cs

/-- Global replacement of a literal pattern. -/
def replaceAll (pat rep s : List Char) : List Char := replaceAllAux pat rep 0 s

/-- The regex assertion `\b` between two neighbouring characters, either of
which may be missing (start or end of the string). -/
def wordBoundary (before after : Option Char) : Bool :=
  (before.elim false isWordChar) != (after.elim false isWordChar)

/-- Does `\bpat\b` match at the head of `s`, the character before being `prev`? -/
def matchesWordAt (pat : List Char) (prev : Option Char) (s : List Char) : Bool :=
  pat.isPrefixOf s &&
  wordBoundary prev s.head? &&
  wordBoundary (if pat.isEmpty then prev else pat.getLast?) (s.drop pat.length).head?

/-- Global replacement of `\bpat\b`, the scan carrying the previous character
of the subject string. -/
def replaceWordAux (pat rep : List Char) : Option Char → Nat → List Char → List Char
  | _, _, [] => []
  | _, k + 1, c :: cs => replaceWordAux pat rep (some c) k cs
  | prev, 0, c :: cs =>
    if matchesWordAt pat prev (c :: cs) then
      rep ++ replaceWordAux pat rep (some c) (pat.length - 1) cs
    else c :: replaceWordAux pat rep (some c) 0 cs

/-- The call `s.replace(new RegExp("\\b" + pat + "\\b", 'g'), rep)`. -/
def replaceWord (pat rep s : List Char) : List Char := replaceWordAux pat rep none 0 s

/-- The call `s.replace(/\s+/g, ' ')`: every maximal run of white space becomes
one space.  The flag tells whether the previous character was white space. -/
def collapseAux : Bool → List Char → List Char
  | _, [] => []
  | inRun, c :: cs =>
    if isWhiteSpace c then
      if inRun then collapseAux true cs else ' ' :: collapseAux true cs
    else c :: collapseAux false cs

/-- Collapse of white-space runs. -/
def collapseSpaces (s : List Char) : List Char := collapseAux false s

/-- Splitting on one separator character; `cur` is the piece being read, reversed. -/
def splitAux (sep : Char) : List Char → List Char → List (List Char)
  | cur, [] => [cur.reverse]
  | cur, c :: cs => if c = sep then cur.reverse :: splitAux sep [] cs else splitAux sep (c :: cur) cs

/-- The call `s.split(' ')`. -/
def splitSpace (s : List Char) : List (List Char) := splitAux ' ' [] s

/-- The idiom `s.split(' ').filter(word => word.length > 0)`. -/
def words (s : List Char) : List (List Char) :=
  (splitSpace s).filter (fun w => decide (0 < w.length))

/-- `String.prototype.startsWith`. -/
def startsWith (s p : List Char) : Bool := p.isPrefixOf s

/-- The JavaScript `length` of a string: its number of UTF-16 code units. -/
def jsLength (s : List Char) : Nat :=
  (s.map (fun c => if c.toNat < 0x10000 then 1 else 2)).sum

/-- The call `prefix.replace(/[- ]/g, '')`. -/
def stripPrefix (p : List Char) : List Char := p.filter (fun c => !(c == '-' || c == ' '))

/-- The prefix loop of both normalizers: the first prefix the string starts
with is rewritten and the loop stops; with no such prefix the string is
unchanged. -/
def normalizePrefix : List (List Char) → List Char → List Char
  | [], s => s
  | p :: ps, s =>
    if startsWith s p then stripPrefix p ++ ' ' :: trim (s.drop p.length)
    else normalizePrefix ps s

/-- The class of the diacritics regex: the eight marks fathatan, dammatan,
kasratan, fatha, damma, kasra, shadda and sukun (U+064B to U+0652). -/
def isDiacritic (c : Char) : Bool := 0x064B ≤ c.toNat && c.toNat ≤ 0x0652

/-- The call `s.replace(/[diacritics]/g, '')`. -/
def removeDiacritics (s : List Char) : List Char := s.filter (fun c => !isDiacritic c)

/-- The array `arabicPrefixes` (the same in both matchers). -/
def arabicPrefixes : List (List Char) :=
  [ "al-".toList, "el-".toList, "al ".toList, "el ".toList,
    "abd".toList, "abdul".toList, "abdel".toList, "abdal".toList,
    "abu".toList, "abou".toList, "abo".toList,
    "bin".toList, "ibn".toList, "ben".toList,
    "al-".toList, "ad-".toList, "ar-".toList, "as-".toList, "at-".toList, "an-".toList ]

/-! ## The tables of `EnhancedFuzzyMatcher` -/

namespace EnhancedFuzzyMatcher

/-- The table `arabicToEnglish`, in source order. -/
def arabicToEnglish : List (Char × List Char) :=
  [ (Char.ofNat 0x0627, "a".toList), (Char.ofNat 0x0628, "b".toList),
    (Char.ofNat 0x062A, "t".toList), (Char.ofNat 0x062B, "th".toList),
    (Char.ofNat 0x062C, "j".toList), (Char.ofNat 0x062D, "h".toList),
    (Char.ofNat 0x062E, "kh".toList), (Char.ofNat 0x062F, "d".toList),
    (Char.ofNat 0x0630, "th".toList), (Char.ofNat 0x0631, "r".toList),
    (Char.ofNat 0x0632, "z".toList), (Char.ofNat 0x0633, "s".toList),
    (Char.ofNat 0x0634, "sh".toList), (Char.ofNat 0x0635, "s".toList),
    (Char.ofNat 0x0636, "d".toList), (Char.ofNat 0x0637, "t".toList),
    (Char.ofNat 0x0638, "th".toList), (Char.ofNat 0x0639, "a".toList),
    (Char.ofNat 0x063A, "gh".toList), (Char.ofNat 0x0641, "f".toList),
    (Char.ofNat 0x0642, "q".toList), (Char.ofNat 0x0643, "k".toList),
    (Char.ofNat 0x0644, "l".toList), (Char.ofNat 0x0645, "m".toList),
    (Char.ofNat 0x0646, "n".toList), (Char.ofNat 0x0647, "h".toList),
    (Char.ofNat 0x0648, "w".toList), (Char.ofNat 0x064A, "y".toList),
    (Char.ofNat 0x0629, "h".toList), (Char.ofNat 0x0649, "a".toList),
    (Char.ofNat 0x0626, "a".toList), (Char.ofNat 0x0624, "w".toList),
    (Char.ofNat 0x0625, "i".toList), (Char.ofNat 0x0623, "a".toList),
    (Char.ofNat 0x0622, "aa".toList), (Char.ofNat 0x0621, "a".toList) ]

/-- The object `replacements` of the enhanced matcher, in insertion order. -/
def replacements : List (List Char × List Char) :=
  [ ("ph".toList, "f".toList), ("kh".toList, "h".toList), ("gh".toList, "g".toList),
    ("aa".toList, "a".toList), ("ee".toList, "i".toList), ("oo".toList, "u".toList),
    ("ii".toList, "i".toList), ("uu".toList, "u".toList), ("th".toList, "t".toList),
    ("sh".toList, "s".toList), ("ch".toList, "k".toList) ]

/-- The object `commonVariations` of the enhanced matcher as `Object.entries`
lists it: each key once, at the place of its first occurrence in the literal
(the second block of the literal repeats the first with the same values). -/
def commonVariations : List (List Char × List Char) :=
  [ ("mohammed".toList, "muhammad".toList), ("mohamed".toList, "muhammad".toList),
    ("mohammad".toList, "muhammad".toList), ("ahmed".toList, "ahmad".toList),
    ("ahmad".toList, "ahmed".toList), ("helmy".toList, "hilmi".toList),
    ("hilmi".toList, "helmy".toList), ("hilmy".toList, "helmy".toList),
    ("helmi".toList, "helmy".toList), ("omar".toList, "umar".toList),
    ("umar".toList, "omar".toList), ("hassan".toList, "hasan".toList),
    ("hasan".toList, "hassan".toList), ("hussein".toList, "husayn".toList),
    ("husayn".toList, "hussein".toList), ("hussain".toList, "hussein".toList),
    ("abdallah".toList, "abdullah".toList), ("abdullah".toList, "abdallah".toList),
    ("abd allah".toList, "abdullah".toList), ("abd al".toList, "abdul".toList),
    ("abdel".toList, "abdul".toList), ("abdul".toList, "abdel".toList),
    ("nasser".toList, "nasir".toList), ("nasir".toList, "nasser".toList),
    ("farid".toList, "fareed".toList), ("fareed".toList, "farid".toList),
    ("khalid".toList, "khaled".toList), ("khaled".toList, "khalid".toList),
    ("wehbe".toList, "wahbi".toList), ("wahbi".toList, "wehbe".toList),
    ("wehby".toList, "wehbe".toList), ("wahby".toList, "wehbe".toList),
    ("haifa".toList, "haifaa".toList), ("haifaa".toList, "haifa".toList),
    ("salah".toList, "salaah".toList), ("salaah".toList, "salah".toList),
    ("ali".toList, "aly".toList), ("aly".toList, "ali".toList),
    ("fatima".toList, "fatimah".toList), ("fatimah".toList, "fatima".toList),
    ("aisha".toList, "aishah".toList), ("aishah".toList, "aisha".toList),
    ("zainab".toList, "zaynab".toList), ("zaynab".toList, "zainab".toList),
    ("mariam".toList, "maryam".toList), ("maryam".toList, "mariam".toList),
    ("yusuf".toList, "yousef".toList), ("yousef".toList, "yusuf".toList),
    ("ibrahim".toList, "ebraheem".toList), ("ebraheem".toList, "ibrahim".toList),
    ("ismail".toList, "ismaeel".toList), ("ismaeel".toList, "ismail".toList),
    ("isma'il".toList, "ismail".toList) ]

/-! ## `EnhancedFuzzyMatcher.normalizeArabicName` -/

/-- The first loop: each character with an entry in `arabicToEnglish` is
replaced by its transliteration, every other character is kept. -/
def transliterate (s : List Char) : List Char :=
  s.flatMap (fun c => (arabicToEnglish.lookup c).getD [c])

/-- The loop over `Object.entries(replacements)`. -/
def applyReplacements (table : List (List Char × List Char)) (s : List Char) : List Char :=
  table.foldl (fun acc e => replaceAll e.1 e.2 acc) s

/-- The loop over `Object.entries(this.commonVariations)` with `\b...\b`. -/
def applyVariations (table : List (List Char × List Char)) (s : List Char) : List Char :=
  table.foldl (fun acc e => replaceWord e.1 e.2 acc) s

/-- The body of `normalizeArabicName` on a non-empty string. -/
def normalizeSteps (name : List Char) : List Char :=
  let normalized := transliterate name
  let normalized := trim (toLowerCase normalized)
  let normalized := removeDiacritics normalized
  let normalized := applyReplacements replacements normalized
  let normalized := applyVariations commonVariations normalized
  let normalized := normalizePrefix arabicPrefixes normalized
  trim (collapseSpaces normalized)

/-- `EnhancedFuzzyMatcher.normalizeArabicName`; `none` is an absent argument
(`undefined` or `null`), which the guard `!name` treats like the empty string. -/
def normalizeArabicName : Option (List Char) → List Char
  | none => []
  | some name => if name.isEmpty then [] else normalizeSteps name


end EnhancedFuzzyMatcher

/-! ## The data model -/

/-- A celebrity record as the matchers read it: `name`, the optional array
`aliases` and the optional string `arabic_name`. -/
structure CelebrityData where
  /-- The field `name`. -/
  name : List Char
  /-- The field `aliases`; `none` when the record has none. -/
  aliases : Option (List (List Char))
  /-- The field `arabic_name`; `none` when the record has none. -/
  arabic_name : Option (List Char)
deriving DecidableEq

/-- The object `{ isCorrect, score, matchedName }`; `matchedName` is `none`
for JavaScript `null`. -/
structure MatchResult where
  /-- The field `isCorrect`. -/
  isCorrect : Bool
  /-- The field `score`. -/
  score : Int
  /-- The field `matchedName`. -/
  matchedName : Option (List Char)
deriving DecidableEq

/-- The object `matchWithSuggestions` returns; an entry of `suggestions` is
`none` when `null` was pushed. -/
structure SuggestionResult where
  /-- The field `isCorrect`. -/
  isCorrect : Bool
  /-- The field `score`. -/
  score : Int
  /-- The field `matchedName`. -/
  matchedName : Option (List Char)
  /-- The field `suggestions`. -/
  suggestions : List (Option (List Char))
deriving DecidableEq

/-- One result of `fuse.search` with `includeScore`: the item and its score. -/
structure FuseResult where
  /-- The field `item`. -/
  item : List Char
  /-- The field `score`, between 0 (perfect) and 1. -/
  score : ℚ

/-- The approximate search of Fuse.js, built over a candidate list and run on
a pattern; its results come best first. -/
abbrev FuseSearch := List (List Char) → List Char → List FuseResult

/-- `Math.round`: the nearest integer, halves going up. -/
def mathRound (q : ℚ) : Int := ⌊q + 1 / 2⌋

/-- The expression `celebrityData.aliases || []`. -/
def aliasesOrEmpty (c : CelebrityData) : List (List Char) := c.aliases.getD []

/-- Truthiness of an optional string: present and not empty. -/
def truthy : Option (List Char) → Bool
  | some (_ :: _) => true
  | _ => false

/-- The spread `...(arabicName ? [f(arabicName)] : [])`. -/
def arabicEntry (f : List Char → List Char) : Option (List Char) → List (List Char)
  | some (c :: cs) => [f (c :: cs)]
  | _ => []

/-- The verdict `{ isCorrect: false, score: 0, matchedName: null }`. -/
def noMatch : MatchResult := ⟨false, 0, none⟩

/-- The shared tail of the matchers after `fuse.search`: with a result, the
best one is scored with `Math.round((1 - score) * 100)` and judged against
`requiredThreshold`; `otherwise` is what follows when there is none. -/
def fuseVerdict (requiredThreshold : Int) (results : List FuseResult)
    (otherwise : MatchResult) : MatchResult :=
  match results with
  | bestMatch :: _ =>
    let score := mathRound ((1 - bestMatch.score) * 100)
    ⟨decide (score ≥ requiredThreshold), score, some bestMatch.item⟩
  | [] => otherwise

namespace EnhancedFuzzyMatcher

/-- The alias loop of `matchCelebrityName`: `none` when no alias has the
normalized form of the input, otherwise the verdict returned from inside the
loop at the first such alias. -/
def matchAliases (normalizedInput celebrityName : List Char) :
    List (List Char) → Option MatchResult
  | [] => none
  | aliasName :: rest =>
    if normalizedInput = normalizeArabicName (some aliasName) then
      let aliasWords := words (normalizeArabicName (some aliasName))
      let celebrityWords := words (normalizeArabicName (some celebrityName))
      if celebrityWords.length > 1 then
        if aliasWords.length > 1 then some ⟨true, 100, some aliasName⟩
        else some noMatch
      else some ⟨true, 100, some aliasName⟩
    else matchAliases normalizedInput celebrityName rest

/-- The array `allVariations`: the name, the aliases and the Arabic name,
followed by their normalized forms. -/
def allVariations (c : CelebrityData) : List (List Char) :=
  (c.name :: aliasesOrEmpty c ++ arabicEntry id c.arabic_name) ++
  (normalizeArabicName (some c.name) ::
    (aliasesOrEmpty c).map (fun aliasName => normalizeArabicName (some aliasName)) ++
    arabicEntry (fun a => normalizeArabicName (some a)) c.arabic_name)

/-- The loop of the single-word branch: the first variation whose normalized
form is one word equal to the input word. -/
def singleWordMatch (inputWord : List Char) : List (List Char) → Option (List Char)
  | [] => none
  | variation :: rest =>
    let variationWords := words (normalizeArabicName (some variation))
    if variationWords.length = 1 ∧ variationWords.head? = some inputWord then some variation
    else singleWordMatch inputWord rest

/-- The test of the word-overlap loop on one variation. -/
def wordsOverlap (inputWords : List (List Char)) (variation : List Char) : Bool :=
  let inputWordsSet := inputWords.eraseDups
  let variationWordsSet := (words (normalizeArabicName (some variation))).eraseDups
  let intersection := inputWordsSet.filter (fun x => variationWordsSet.contains x)
  decide (intersection.length > 0 ∧
    2 * intersection.length ≥ min inputWordsSet.length variationWordsSet.length)

/-- The word-overlap loop: the first variation passing `wordsOverlap`. -/
def wordOverlapMatch (inputWords : List (List Char)) (variations : List (List Char)) :
    Option (List Char) :=
  variations.find? (wordsOverlap inputWords)

/-- `EnhancedFuzzyMatcher.matchCelebrityName`. -/
def matchCelebrityName (fuse : FuseSearch) (userInput : Option (List Char))
    (celebrityData : CelebrityData) : MatchResult :=
  let normalizedInput := normalizeArabicName userInput
  let celebrityName := celebrityData.name
  let aliases := aliasesOrEmpty celebrityData
  let arabicName := celebrityData.arabic_name
  if normalizedInput = normalizeArabicName (some celebrityName) then
    ⟨true, 100, some celebrityName⟩
  else
    match matchAliases normalizedInput celebrityName aliases with
    | some verdict => verdict
    | none =>
      if truthy arabicName ∧ normalizedInput = normalizeArabicName arabicName then
        ⟨true, 100, arabicName⟩
      else if jsLength normalizedInput < 3 then noMatch
      else
        let inputWords := words normalizedInput
        match inputWords with
        | [inputWord] =>
          match singleWordMatch inputWord (allVariations celebrityData) with
          | some variation => ⟨true, 100, some variation⟩
          | none => noMatch
        | _ =>
          fuseVerdict 70 (fuse (allVariations celebrityData) normalizedInput)
            (match wordOverlapMatch inputWords (allVariations celebrityData) with
              | some variation => ⟨true, 85, some variation⟩
              | none => noMatch)

/-- `EnhancedFuzzyMatcher.matchWithSuggestions`. -/
def matchWithSuggestions (fuse : FuseSearch) (userInput : Option (List Char))
    (celebrityData : CelebrityData) (suggestionThreshold : Int) : SuggestionResult :=
  let matchResult := matchCelebrityName fuse userInput celebrityData
  if matchResult.isCorrect then
    ⟨true, matchResult.score, matchResult.matchedName, []⟩
  else
    let suggestions : List (Option (List Char)) :=
      if matchResult.score ≥ suggestionThreshold then
        [matchResult.matchedName] ++
        (match celebrityData.aliases with
          | some aliases => (aliases.take 2).map some
          | none => []) ++
        (if truthy celebrityData.arabic_name then [celebrityData.arabic_name] else [])
      else []
    ⟨false, matchResult.score, matchResult.matchedName, suggestions⟩

end EnhancedFuzzyMatcher

/-! ## The basic `FuzzyMatcher` -/

namespace FuzzyMatcher

/-- The object `replacements` of the basic matcher, in insertion order. -/
def replacements : List (List Char × List Char) :=
  [ ("ph".toList, "f".toList), ("kh".toList, "h".toList), ("gh".toList, "g".toList),
    ("aa".toList, "a".toList), ("ee".toList, "i".toList), ("oo".toList, "u".toList),
    ("ii".toList, "i".toList), ("uu".toList, "u".toList) ]

/-- The object `commonVariations` of the basic matcher, in insertion order. -/
def commonVariations : List (List Char × List Char) :=
  [ ("mohammed".toList, "muhammad".toList), ("mohamed".toList, "muhammad".toList),
    ("mohammad".toList, "muhammad".toList), ("ahmed".toList, "ahmad".toList),
    ("omar".toList, "umar".toList), ("hassan".toList, "hasan".toList),
    ("hussein".toList, "husayn".toList), ("hussain".toList, "husayn".toList),
    ("abdallah".toList, "abdullah".toList), ("abd allah".toList, "abdullah".toList),
    ("abd al".toList, "abdul".toList), ("abdel".toList, "abdul".toList),
    ("nasser".toList, "nasir".toList), ("nasir".toList, "nasser".toList),
    ("farid".toList, "fareed".toList), ("fareed".toList, "farid".toList),
    ("khalid".toList, "khaled".toList), ("khaled".toList, "khalid".toList),
    ("wehbe".toList, "wahbi".toList), ("wahbi".toList, "wehbe".toList),
    ("wehby".toList, "wehbe".toList), ("wahby".toList, "wehbe".toList),
    ("haifa".toList, "haifaa".toList), ("haifaa".toList, "haifa".toList),
    ("salah".toList, "salaah".toList), ("salaah".toList, "salah".toList),
    ("ali".toList, "aly".toList), ("aly".toList, "ali".toList),
    ("fatima".toList, "fatimah".toList), ("fatimah".toList, "fatima".toList),
    ("aisha".toList, "aishah".toList), ("aishah".toList, "aisha".toList),
    ("zainab".toList, "zaynab".toList), ("zaynab".toList, "zainab".toList),
    ("mariam".toList, "maryam".toList), ("maryam".toList, "mariam".toList),
    ("yusuf".toList, "yousef".toList), ("yousef".toList, "yusuf".toList),
    ("ibrahim".toList, "ebraheem".toList), ("ebraheem".toList, "ibrahim".toList),
    ("ismail".toList, "ismaeel".toList), ("ismaeel".toList, "ismail".toList),
    ("isma'il".toList, "ismail".toList) ]

/-- The two replacement loops of the basic matcher: both use the plain
pattern, with no word boundary. -/
def applyReplacements (table : List (List Char × List Char)) (s : List Char) : List Char :=
  table.foldl (fun acc e => replaceAll e.1 e.2 acc) s

/-- The body of the basic `normalizeArabicName` on a non-empty string. -/
def normalizeSteps (name : List Char) : List Char :=
  let name := trim (toLowerCase name)
  let name := removeDiacritics name
  let name := applyReplacements replacements name
  let name := applyReplacements commonVariations name
  let name := normalizePrefix arabicPrefixes name
  trim (collapseSpaces name)

/-- `FuzzyMatcher.normalizeArabicName`; `none` is an absent argument. -/
def normalizeArabicName : Option (List Char) → List Char
  | none => []
  | some name => if name.isEmpty then [] else normalizeSteps name

/-- The alias loop of the basic `matchCelebrityName`: the first alias whose
normalized form is the normalized input. -/
def matchAliases (normalizedInput : List Char) : List (List Char) → Option MatchResult
  | [] => none
  | aliasName :: rest =>
    if normalizedInput = normalizeArabicName (some aliasName) then
      some ⟨true, 100, some aliasName⟩
    else matchAliases normalizedInput rest

/-- The array `allWords` of the single-word branch. -/
def allWords (c : CelebrityData) : List (List Char) :=
  let celebrityWords := words (normalizeArabicName (some c.name))
  let aliasWords := (aliasesOrEmpty c).flatMap
    (fun aliasName => words (normalizeArabicName (some aliasName)))
  let arabicWords := if truthy c.arabic_name then words (normalizeArabicName c.arabic_name) else []
  celebrityWords ++ aliasWords ++ arabicWords

/-- The array `searchData`. -/
def searchData (c : CelebrityData) : List (List Char) :=
  c.name :: aliasesOrEmpty c ++ arabicEntry id c.arabic_name

/-- `FuzzyMatcher.matchCelebrityName`. -/
def matchCelebrityName (fuse : FuseSearch) (userInput : Option (List Char))
    (celebrityData : CelebrityData) : MatchResult :=
  let normalizedInput := normalizeArabicName userInput
  let celebrityName := celebrityData.name
  let aliases := aliasesOrEmpty celebrityData
  let arabicName := celebrityData.arabic_name
  if normalizedInput = normalizeArabicName (some celebrityName) then
    ⟨true, 100, some celebrityName⟩
  else
    match matchAliases normalizedInput aliases with
    | some verdict => verdict
    | none =>
      if truthy arabicName ∧ normalizedInput = normalizeArabicName arabicName then
        ⟨true, 100, arabicName⟩
      else if jsLength normalizedInput < 4 then noMatch
      else
        let inputWords := words normalizedInput
        let exactWordMatch : Bool :=
          match inputWords with
          | [inputWord] => (allWords celebrityData).any (fun word => decide (word = inputWord))
          | _ => false
        if exactWordMatch then ⟨true, 95, inputWords.head?⟩
        else fuseVerdict 80 (fuse (searchData celebrityData) normalizedInput) noMatch

end FuzzyMatcher

/-! ## `WikipediaService`: the pure helpers -/

/-- `String.prototype.includes` with a string argument. -/
def includes : List Char → List Char → Bool
  | [], pat => pat.isPrefixOf []
  | c :: cs, pat => pat.isPrefixOf (c :: cs) || includes cs pat

/-- `String.prototype.replace` with a string pattern: the first occurrence
only is replaced. -/
def replaceFirst (pat rep : List Char) : List Char → List Char
  | [] => if pat.isEmpty then rep else []
  | c :: cs =>
    if pat.isPrefixOf (c :: cs) then rep ++ (c :: cs).drop pat.length
    else c :: replaceFirst pat rep cs

/-- The call `s.substring(0, n)`, counted in UTF-16 code units; a character of
two code units that the cut would split is left out. -/
def substringTo : Nat → List Char → List Char
  | _, [] => []
  | n, c :: cs =>
    if (if c.toNat < 0x10000 then 1 else 2) ≤ n then
      c :: substringTo (n - (if c.toNat < 0x10000 then 1 else 2)) cs
    else []

/-- The call `s.replace(/<[^>]*>/g, '')`: a `<` with a `>` somewhere after it
opens a match that runs to the first such `>`; the flag tells whether the scan
is inside a match. -/
def removeTagsAux : Bool → List Char → List Char
  | _, [] => []
  | true, c :: cs => if c = '>' then removeTagsAux false cs else removeTagsAux true cs
  | false, c :: cs =>
    if c = '<' ∧ '>' ∈ cs then removeTagsAux true cs else c :: removeTagsAux false cs

/-- Removal of the HTML tags. -/
def removeTags (s : List Char) : List Char := removeTagsAux false s

namespace WikipediaService

/-- The object `commonVariations` of `generateNameVariations`, in insertion
order. -/
def commonVariations : List (List Char × List Char) :=
  [ ("mohammed".toList, "muhammad".toList), ("mohamed".toList, "muhammad".toList),
    ("mohammad".toList, "muhammad".toList), ("ahmed".toList, "ahmad".toList),
    ("omar".toList, "umar".toList), ("hassan".toList, "hasan".toList),
    ("hussein".toList, "husayn".toList), ("hussain".toList, "husayn".toList),
    ("abdallah".toList, "abdullah".toList), ("abd allah".toList, "abdullah".toList),
    ("abd al".toList, "abdul".toList), ("abdel".toList, "abdul".toList) ]

/-- The loop over `Object.entries(commonVariations)`: for each variant the
lower-cased name includes, the lower-cased name with the first occurrence of
that variant replaced is pushed. -/
def variantEntries (name : List Char) : List (List Char × List Char) → List (List Char)
  | [] => []
  | (variant, standard) :: rest =>
    if includes (toLowerCase name) variant then
      replaceFirst variant standard (toLowerCase name) :: variantEntries name rest
    else variantEntries name rest

/-- `WikipediaService.generateNameVariations`. -/
def generateNameVariations (name : List Char) : List (List Char) :=
  variantEntries name commonVariations ++
  (if !startsWith (toLowerCase name) "al ".toList then ["al ".toList ++ name] else []) ++
  (if startsWith (toLowerCase name) "al ".toList then [name.drop 3] else [])

/-- `WikipediaService.cleanDescription`; `none` is an absent description. -/
def cleanDescription : Option (List Char) → List Char
  | none => []
  | some description =>
    if description.isEmpty then []
    else
      let description := removeTags description
      let description := trim (collapseSpaces description)
      if jsLength description > 300 then substringTo 297 description ++ "...".toList
      else description

end WikipediaService

/-! ## `ImageCache.generateCacheKey` -/

namespace ImageCache

/-- The class `[a-z0-9]`. -/
def isLowerAlnum (c : Char) : Bool :=
  (decide (0x61 ≤ c.toNat) && decide (c.toNat ≤ 0x7A)) ||
  (decide (0x30 ≤ c.toNat) && decide (c.toNat ≤ 0x39))

/-- The call `s.replace(/[^a-z0-9]/g, '_')`: every UTF-16 code unit outside
the class becomes an underscore, so a character of two code units becomes two
underscores. -/
def replaceNonAlnum (s : List Char) : List Char :=
  s.flatMap (fun c =>
    if isLowerAlnum c then [c] else if c.toNat < 0x10000 then ['_'] else ['_', '_'])

/-- The call `s.replace(/_+/g, '_')`; the flag tells whether the previous
character was an underscore. -/
def collapseUnderscoresAux : Bool → List Char → List Char
  | _, [] => []
  | inRun, c :: cs =>
    if c = '_' then
      if inRun then collapseUnderscoresAux true cs else '_' :: collapseUnderscoresAux true cs
    else c :: collapseUnderscoresAux false cs

/-- `ImageCache.generateCacheKey`. -/
def generateCacheKey (celebrityName : List Char) : List Char :=
  substringTo 100
    (collapseUnderscoresAux false (replaceNonAlnum (toLowerCase celebrityName)))

end ImageCache

/-! ## `isCorrectAnswer`, `levenshteinDistance` and `calculateWordSimilarity` -/

namespace EnhancedFuzzyMatcher

/-- `EnhancedFuzzyMatcher.isCorrectAnswer`; `thisThreshold` is the field
`this.threshold` set by the constructor, and `threshold` is `none` when the
argument is omitted or `null`.  A threshold of 0 is falsy and gives way to
`this.threshold`. -/
def isCorrectAnswer (fuse : FuseSearch) (thisThreshold : Int) (userInput : Option (List Char))
    (celebrityData : CelebrityData) (threshold : Option Int) : Bool :=
  let matchResult := matchCelebrityName fuse userInput celebrityData
  let matchThreshold :=
    match threshold with
    | some t => if t ≠ 0 then t else thisThreshold
    | none => thisThreshold
  decide (matchResult.score ≥ matchThreshold)

/-- The inner loop of `levenshteinDistance` for one row `i`: `c2` is
`str2.charAt(i - 1)`, the first argument is what is left of `str1`, the second
is the previous row from column `j - 1` on, and `left` is `matrix[i][j - 1]`.
The result is the part of row `i` from column `j` on. -/
def fillRow {α : Type} [DecidableEq α] (c2 : α) : List α → List Nat → Nat → List Nat
  | c1 :: rest, diag :: up :: prev, left =>
    let v := if c2 = c1 then diag else min (diag + 1) (min (left + 1) (up + 1))
    v :: fillRow c2 rest (up :: prev) v
  | _, _, _ => []

/-- Row `i` of the matrix: `matrix[i][0] = i`, then the inner loop. -/
def nextRow {α : Type} [DecidableEq α] (c2 : α) (str1 : List α) (prevRow : List Nat)
    (i : Nat) : List Nat :=
  i :: fillRow c2 str1 prevRow i

/-- The outer loop of `levenshteinDistance`: the first argument is what is
left of `str2`, `i` the number of rows done after row 0, `row` the last row
done.  The result is the last row of the matrix. -/
def rowsLoop {α : Type} [DecidableEq α] (str1 : List α) : List α → Nat → List Nat → List Nat
  | [], _, row => row
  | c2 :: rest, i, row => rowsLoop str1 rest (i + 1) (nextRow c2 str1 row (i + 1))

/-- `levenshteinDistance(str1, str2)`.  The function reads its arguments with
`length` and `charAt`, as sequences of UTF-16 code units, so the alphabet is
left open.  Row 0 is `matrix[0][j] = j`; the result is
`matrix[str2.length][str1.length]`, the last entry of the last row. -/
def levenshteinDistance {α : Type} [DecidableEq α] (str1 str2 : List α) : Nat :=
  (rowsLoop str1 str2 0 (List.range (str1.length + 1))).getLastD 0

/-- `calculateWordSimilarity(word1, word2)`, the quotient taken in ℚ. -/
def calculateWordSimilarity {α : Type} [DecidableEq α] (word1 word2 : List α) : ℚ :=
  if word1.isEmpty ∨ word2.isEmpty then 0
  else
    let longer := if word1.length > word2.length then word1 else word2
    let shorter := if word1.length > word2.length then word2 else word1
    if longer.length = 0 then 1
    else ((longer.length : ℚ) - (levenshteinDistance longer shorter : ℚ)) / (longer.length : ℚ)

end EnhancedFuzzyMatcher

end Machahir

/-! ## Predicates of the statements -/

namespace Machahir

/-- A string of ASCII characters. -/
def isAscii (s : List Char) : Bool := s.all (fun c => decide (c.toNat < 128))

/-- Two characters that are equal, or the upper and lower case of one ASCII
letter. -/
def sameLetter (a b : Char) : Bool :=
  a == b ||
  (decide (0x41 ≤ a.toNat) && decide (a.toNat ≤ 0x5A) && b.toNat == a.toNat + 32) ||
  (decide (0x41 ≤ b.toNat) && decide (b.toNat ≤ 0x5A) && a.toNat == b.toNat + 32)

/-- Two strings of the same length that differ at most in the case of their
ASCII letters. -/
def differOnlyInCase : List Char → List Char → Bool
  | [], [] => true
  | a :: x, b :: y => sameLetter a b && differOnlyInCase x y
  | _, _ => false

/-- A character that transliteration, lower-casing and the removal of
diacritics leave alone: it has no entry in `arabicToEnglish`, is no upper-case
ASCII letter and is no diacritic. -/
def isSettled (c : Char) : Bool :=
  (EnhancedFuzzyMatcher.arabicToEnglish.lookup c).isNone &&
  !(decide (0x41 ≤ c.toNat) && decide (c.toNat ≤ 0x5A)) && !isDiacritic c

/-- A string whose only white space is single spaces; the flag tells whether
the character before the string is white space. -/
def isCollapsed : Bool → List Char → Bool
  | _, [] => true
  | prevWhite, c :: cs =>
    if isWhiteSpace c then c == ' ' && !prevWhite && isCollapsed true cs
    else isCollapsed false cs

/-- Does the string hold a `<` with a `>` somewhere after it? -/
def hasTag : List Char → Bool
  | [] => false
  | c :: cs => (c == '<' && cs.contains '>') || hasTag cs

/-- The prefix list without the entries 'abdul', 'abdel', 'abdal' and without
the second 'al-'. -/
def reducedPrefixes : List (List Char) :=
  [ "al-".toList, "el-".toList, "al ".toList, "el ".toList,
    "abd".toList,
    "abu".toList, "abou".toList, "abo".toList,
    "bin".toList, "ibn".toList, "ben".toList,
    "ad-".toList, "ar-".toList, "as-".toList, "at-".toList, "an-".toList ]

/-- The steps of the enhanced normalizer with another prefix list in the
prefix step. -/
def normalizeStepsWith (prefixes : List (List Char)) (name : List Char) : List Char :=
  trim (collapseSpaces (normalizePrefix prefixes
    (EnhancedFuzzyMatcher.applyVariations EnhancedFuzzyMatcher.commonVariations
      (EnhancedFuzzyMatcher.applyReplacements EnhancedFuzzyMatcher.replacements
        (removeDiacritics (trim (toLowerCase (EnhancedFuzzyMatcher.transliterate name))))))))

/-- The enhanced normalizer with another prefix list in the prefix step. -/
def normalizeArabicNameWith (prefixes : List (List Char)) : Option (List Char) → List Char
  | none => []
  | some name => if name.isEmpty then [] else normalizeStepsWith prefixes name

/-- One edit of a sequence: the insertion, the deletion or the substitution of
one element. -/
inductive EditStep {α : Type} : List α → List α → Prop
  | insert (l r : List α) (x : α) : EditStep (l ++ r) (l ++ x :: r)
  | delete (l r : List α) (x : α) : EditStep (l ++ x :: r) (l ++ r)
  | substitute (l r : List α) (x y : α) : EditStep (l ++ x :: r) (l ++ y :: r)

/-- A sequence of `n` edits that turns one sequence into another. -/
inductive EditsIn {α : Type} : Nat → List α → List α → Prop
  | done (a : List α) : EditsIn 0 a a
  | step {n : Nat} {a b c : List α} : EditStep a b → EditsIn n b c → EditsIn (n + 1) a c

/-- The edit distance by recursion on the first elements. -/
def lev {α : Type} [DecidableEq α] : List α → List α → Nat
  | [], b => b.length
  | a, [] => a.length
  | x :: a, y :: b =>
    if x = y then lev a b
    else min (lev a b + 1) (min (lev (x :: a) b + 1) (lev a (y :: b) + 1))

/-- The distances from `p` to `q`, to `q` with the first element of `rest` put
in front, and so on until `rest` is used up. -/
def levRow {α : Type} [DecidableEq α] (p : List α) : List α → List α → List Nat
  | q, [] => [lev p q]
  | q, c :: rest => lev p q :: levRow p (c :: q) rest

/-- Two token lists, read as sets, share at least one token, and the shared
tokens are at least half of the smaller set. -/
def sharesHalf (inputWords variationWords : List (List Char)) : Prop :=
  0 < (inputWords.toFinset ∩ variationWords.toFinset).card ∧
  min inputWords.toFinset.card variationWords.toFinset.card
    ≤ 2 * (inputWords.toFinset ∩ variationWords.toFinset).card

/-- A word after lower-casing, the digraph replacements and the variant
replacements: what the prefix step of the enhanced normalizer receives when
the input is one word of ASCII letters. -/
def foldedWord (w : List Char) : List Char :=
  EnhancedFuzzyMatcher.applyVariations EnhancedFuzzyMatcher.commonVariations
    (EnhancedFuzzyMatcher.applyReplacements EnhancedFuzzyMatcher.replacements (toLowerCase w))

/-- A lower-case ASCII letter. -/
def isLowerLetter (c : Char) : Bool := decide (0x61 ≤ c.toNat) && decide (c.toNat ≤ 0x7A)

/-- The three spellings the variant table folds to 'muhammad'. -/
def mohammedFamily : List (List Char) :=
  ["mohammed".toList, "mohamed".toList, "mohammad".toList]

end Machahir

/-! ## The alias loop of the enhanced matcher -/

namespace Machahir

open EnhancedFuzzyMatcher in
/-- With no alias of the normalized form of the input, the alias loop ends
without a verdict. -/
theorem EnhancedFuzzyMatcher.matchAliases_eq_none (normalizedInput celebrityName : List Char)
    (aliases : List (List Char))
    (h : ∀ a ∈ aliases, normalizedInput ≠ normalizeArabicName (some a)) :
    matchAliases normalizedInput celebrityName aliases = none := by
  induction aliases with
  | nil => rfl
  | cons a rest ih =>
    have ha := h a (List.mem_cons_self a rest)
    have hrest : ∀ b ∈ rest, normalizedInput ≠ normalizeArabicName (some b) :=
      fun b hb => h b (List.mem_cons_of_mem a hb)
    simp [matchAliases, ha, ih hrest]

open EnhancedFuzzyMatcher in
/-- A normalized input of at most one word that is the normalized form of an
alias is rejected inside the loop when the name has several words. -/
theorem EnhancedFuzzyMatcher.matchAliases_eq_reject (normalizedInput celebrityName : List Char)
    (aliases : List (List Char)) (a : List Char) (hmem : a ∈ aliases)
    (heq : normalizedInput = normalizeArabicName (some a))
    (hmulti : 1 < (words (normalizeArabicName (some celebrityName))).length)
    (hsingle : ¬ 1 < (words normalizedInput).length) :
    matchAliases normalizedInput celebrityName aliases = some noMatch := by
  induction aliases with
  | nil => cases hmem
  | cons b rest ih =>
    by_cases hb : normalizedInput = normalizeArabicName (some b)
    · simp [matchAliases, ← hb, hmulti, hsingle]
    · have hmem2 : a ∈ rest := by
        rcases List.mem_cons.mp hmem with h | h
        · exact absurd (h ▸ heq) hb
        · exact h
      simp [matchAliases, hb, ih hmem2]

open EnhancedFuzzyMatcher in
/-- A normalized input that is the normalized form of an alias is accepted
inside the loop, with the first such alias as label, when the name has at most
one word or the input has several. -/
theorem EnhancedFuzzyMatcher.matchAliases_eq_accept (normalizedInput celebrityName : List Char)
    (aliases : List (List Char)) (a : List Char) (hmem : a ∈ aliases)
    (heq : normalizedInput = normalizeArabicName (some a))
    (hwc : ¬ 1 < (words (normalizeArabicName (some celebrityName))).length ∨
      1 < (words normalizedInput).length) :
    matchAliases normalizedInput celebrityName aliases =
      some ⟨true, 100,
        aliases.find? (fun b => decide (normalizeArabicName (some b) = normalizedInput))⟩ := by
  induction aliases with
  | nil => cases hmem
  | cons b rest ih =>
    by_cases hb : normalizedInput = normalizeArabicName (some b)
    · rcases hwc with h | h
      · simp [matchAliases, ← hb, h]
      · simp [matchAliases, ← hb, h]
    · have hmem2 : a ∈ rest := by
        rcases List.mem_cons.mp hmem with h | h
        · exact absurd (h ▸ heq) hb
        · exact h
      have hb2 : ¬ normalizeArabicName (some b) = normalizedInput := fun h => hb h.symm
      simp [matchAliases, hb, hb2, ih hmem2]

/-! ## The verdicts of `matchCelebrityName` -/

/-- C1. Given the canonical name of a record as input, `matchCelebrityName`
returns correct, score 100 and the canonical name as label, in the enhanced
matcher and in the basic one, whatever the aliases, the Arabic name and the
approximate search are. -/
theorem exact_name_is_correct (fuse fuseBasic : FuseSearch) (c : CelebrityData) :
    EnhancedFuzzyMatcher.matchCelebrityName fuse (some c.name) c = ⟨true, 100, some c.name⟩ ∧
    FuzzyMatcher.matchCelebrityName fuseBasic (some c.name) c = ⟨true, 100, some c.name⟩ := by
  constructor
  · simp [EnhancedFuzzyMatcher.matchCelebrityName]
  · simp [FuzzyMatcher.matchCelebrityName]

open EnhancedFuzzyMatcher in
/-- C3. When the normalized canonical name has more than one word and the
normalized input differs from it but equals the normalized form of an alias
that is a single word, `matchCelebrityName` returns incorrect, score 0 and no
label. -/
theorem single_word_alias_rejected (fuse : FuseSearch) (userInput : Option (List Char))
    (c : CelebrityData) (a : List Char)
    (hmulti : 1 < (words (normalizeArabicName (some c.name))).length)
    (hne : normalizeArabicName userInput ≠ normalizeArabicName (some c.name))
    (hmem : a ∈ aliasesOrEmpty c)
    (heq : normalizeArabicName userInput = normalizeArabicName (some a))
    (hsingle : (words (normalizeArabicName (some a))).length = 1) :
    matchCelebrityName fuse userInput c = ⟨false, 0, none⟩ := by
  have hs : ¬ 1 < (words (normalizeArabicName userInput)).length := by
    rw [heq, hsingle]; exact Nat.lt_irrefl 1
  have hloop := matchAliases_eq_reject (normalizeArabicName userInput) c.name
    (aliasesOrEmpty c) a hmem heq hmulti hs
  simp [matchCelebrityName, hne, hloop, noMatch]

open EnhancedFuzzyMatcher in
/-- C3, at the input 'Salah' for the record 'Mohamed Salah' with the alias 'Salah'. -/
theorem single_word_alias_rejected_witness :
    matchCelebrityName (fun _ _ => []) (some "Salah".toList)
      ⟨"Mohamed Salah".toList, some ["Salah".toList], none⟩ = ⟨false, 0, none⟩ :=
  single_word_alias_rejected (fun _ _ => []) (some "Salah".toList)
    ⟨"Mohamed Salah".toList, some ["Salah".toList], none⟩ "Salah".toList
    (by decide) (by decide) (by decide) (by decide) (by decide)

open EnhancedFuzzyMatcher in
/-- C4. When the normalized input differs from the normalized canonical name
but equals the normalized form of an alias, and the normalized canonical name
is a single word or the normalized alias has more than one word,
`matchCelebrityName` returns correct, score 100, and its label is the first
alias in list order whose normalized form is the normalized input. -/
theorem matching_alias_accepted (fuse : FuseSearch) (userInput : Option (List Char))
    (c : CelebrityData) (a : List Char)
    (hne : normalizeArabicName userInput ≠ normalizeArabicName (some c.name))
    (hmem : a ∈ aliasesOrEmpty c)
    (heq : normalizeArabicName userInput = normalizeArabicName (some a))
    (hwc : (words (normalizeArabicName (some c.name))).length = 1 ∨
      1 < (words (normalizeArabicName (some a))).length) :
    matchCelebrityName fuse userInput c =
      ⟨true, 100, (aliasesOrEmpty c).find?
        (fun b => decide (normalizeArabicName (some b) = normalizeArabicName userInput))⟩ ∧
    ((aliasesOrEmpty c).find?
      (fun b => decide (normalizeArabicName (some b) = normalizeArabicName userInput))).isSome
      = true := by
  have hwc2 : ¬ 1 < (words (normalizeArabicName (some c.name))).length ∨
      1 < (words (normalizeArabicName userInput)).length := by
    rcases hwc with h | h
    · left; rw [h]; exact Nat.lt_irrefl 1
    · right; rw [heq]; exact h
  have hloop := matchAliases_eq_accept (normalizeArabicName userInput) c.name
    (aliasesOrEmpty c) a hmem heq hwc2
  refine ⟨by simp [matchCelebrityName, hne, hloop], ?_⟩
  rw [List.find?_isSome]
  exact ⟨a, hmem, by simp [heq]⟩

open EnhancedFuzzyMatcher in
/-- C4, at the input 'Fairouz' for the record 'Fairuz' with the alias 'Fairouz'. -/
theorem matching_alias_accepted_witness :
    matchCelebrityName (fun _ _ => []) (some "Fairouz".toList)
      ⟨"Fairuz".toList, some ["Fairouz".toList], none⟩ = ⟨true, 100, some "Fairouz".toList⟩ :=
  (matching_alias_accepted (fun _ _ => []) (some "Fairouz".toList)
    ⟨"Fairuz".toList, some ["Fairouz".toList], none⟩ "Fairouz".toList
    (by decide) (by decide) (by decide) (Or.inl (by decide))).1.trans (by decide)

open EnhancedFuzzyMatcher in
/-- C5, as stated, fails: the input 'Mo' has a normalized form of two
characters, and for a record named 'Mo' the result has score 100. -/
theorem short_input_counterexample :
    jsLength (normalizeArabicName (some "Mo".toList)) < 3 ∧
    (matchCelebrityName (fun _ _ => []) (some "Mo".toList) ⟨"Mo".toList, none, none⟩).score
      = 100 := by
  decide

open EnhancedFuzzyMatcher in
/-- C5, amended. When the normalized input has fewer than 3 characters and
equals neither the normalized canonical name, nor the normalized form of an
alias, nor the normalized Arabic name of a record that has one,
`matchCelebrityName` returns incorrect, score 0 and no label, whatever the
record and the approximate search are. -/
theorem short_input_rejected (fuse : FuseSearch) (userInput : Option (List Char))
    (c : CelebrityData)
    (hlen : jsLength (normalizeArabicName userInput) < 3)
    (hname : normalizeArabicName userInput ≠ normalizeArabicName (some c.name))
    (halias : ∀ a ∈ aliasesOrEmpty c, normalizeArabicName userInput ≠ normalizeArabicName (some a))
    (harabic : truthy c.arabic_name = true →
      normalizeArabicName userInput ≠ normalizeArabicName c.arabic_name) :
    matchCelebrityName fuse userInput c = ⟨false, 0, none⟩ := by
  have hloop := matchAliases_eq_none (normalizeArabicName userInput) c.name
    (aliasesOrEmpty c) halias
  have har : ¬ (truthy c.arabic_name = true ∧
      normalizeArabicName userInput = normalizeArabicName c.arabic_name) :=
    fun h => harabic h.1 h.2
  simp [matchCelebrityName, hname, hloop, har, hlen, noMatch]

open EnhancedFuzzyMatcher in
/-- C5, amended, at the input 'Mo' for the record 'Mohamed Salah' with the
alias 'Salah'. -/
theorem short_input_rejected_witness :
    matchCelebrityName (fun _ _ => []) (some "Mo".toList)
      ⟨"Mohamed Salah".toList, some ["Salah".toList], none⟩ = ⟨false, 0, none⟩ :=
  short_input_rejected (fun _ _ => []) (some "Mo".toList)
    ⟨"Mohamed Salah".toList, some ["Salah".toList], none⟩
    (by decide) (by decide) (by decide) (by decide)

open EnhancedFuzzyMatcher in
/-- C6 fails at the input 'x-abdul' for the record named 'x-abd  al' (two
spaces), with no alias and no Arabic name: the normalized input 'x-abdel' is
one token, the normalized name 'x-abd al' is two tokens, and yet the result
is correct with score 100.  The single-word loop normalizes the entries of
`allVariations` once more, and the already normalized name 'x-abd al' folds to
the one token 'x-abdel'. -/
theorem single_word_guard_breaks :
    words (normalizeArabicName (some "x-abdul".toList)) = ["x-abdel".toList] ∧
    words (normalizeArabicName (some "x-abd  al".toList)) = ["x-abd".toList, "al".toList] ∧
    ∀ fuse : FuseSearch,
      matchCelebrityName fuse (some "x-abdul".toList) ⟨"x-abd  al".toList, none, none⟩
        = ⟨true, 100, some "x-abd al".toList⟩ := by
  exact ⟨by decide, by decide, fun _ => rfl⟩

/-! ## `matchWithSuggestions` -/

open EnhancedFuzzyMatcher in
/-- C9. When `matchCelebrityName` is incorrect with score `s`, the suggestions
of `matchWithSuggestions` are non-empty if `s >= suggestionThreshold` and
empty if `s < suggestionThreshold`; in particular they are non-empty at the
threshold `s` itself and empty at the threshold `s + 1`. -/
theorem suggestions_follow_threshold (fuse : FuseSearch) (userInput : Option (List Char))
    (c : CelebrityData) (suggestionThreshold : Int)
    (hinc : (matchCelebrityName fuse userInput c).isCorrect = false) :
    (suggestionThreshold ≤ (matchCelebrityName fuse userInput c).score →
      (matchWithSuggestions fuse userInput c suggestionThreshold).suggestions ≠ []) ∧
    ((matchCelebrityName fuse userInput c).score < suggestionThreshold →
      (matchWithSuggestions fuse userInput c suggestionThreshold).suggestions = []) ∧
    (matchWithSuggestions fuse userInput c
      (matchCelebrityName fuse userInput c).score).suggestions ≠ [] ∧
    (matchWithSuggestions fuse userInput c
      ((matchCelebrityName fuse userInput c).score + 1)).suggestions = [] := by
  refine ⟨fun h => ?_, fun h => ?_, ?_, ?_⟩
  · simp [matchWithSuggestions, hinc, h]
  · simp [matchWithSuggestions, hinc, h]
  · simp [matchWithSuggestions, hinc]
  · simp [matchWithSuggestions, hinc]

open EnhancedFuzzyMatcher in
/-- C9, at the input 'Omar' for the record 'Omar Sharif' with the alias
'Omar El-Sharif': the verdict is incorrect with score 0, the suggestions at
the threshold 0 are the null label and the alias, those at the threshold 1 are
empty. -/
theorem suggestions_follow_threshold_witness :
    (matchWithSuggestions (fun _ _ => []) (some "Omar".toList)
      ⟨"Omar Sharif".toList, some ["Omar El-Sharif".toList], none⟩ 0).suggestions
      = [none, some "Omar El-Sharif".toList] ∧
    (matchWithSuggestions (fun _ _ => []) (some "Omar".toList)
      ⟨"Omar Sharif".toList, some ["Omar El-Sharif".toList], none⟩ 1).suggestions = [] := by
  have h := suggestions_follow_threshold (fun _ _ => []) (some "Omar".toList)
    ⟨"Omar Sharif".toList, some ["Omar El-Sharif".toList], none⟩ 1 (by decide)
  exact ⟨by decide, h.2.1 (by decide)⟩

open EnhancedFuzzyMatcher in
/-- C10. `matchWithSuggestions` returns the `isCorrect`, `score` and
`matchedName` of `matchCelebrityName` on the same input and record, for every
threshold, and its suggestions are empty whenever `isCorrect` is true. -/
theorem suggestions_keep_verdict (fuse : FuseSearch) (userInput : Option (List Char))
    (c : CelebrityData) (suggestionThreshold : Int) :
    (matchWithSuggestions fuse userInput c suggestionThreshold).isCorrect
      = (matchCelebrityName fuse userInput c).isCorrect ∧
    (matchWithSuggestions fuse userInput c suggestionThreshold).score
      = (matchCelebrityName fuse userInput c).score ∧
    (matchWithSuggestions fuse userInput c suggestionThreshold).matchedName
      = (matchCelebrityName fuse userInput c).matchedName ∧
    ((matchWithSuggestions fuse userInput c suggestionThreshold).isCorrect = true →
      (matchWithSuggestions fuse userInput c suggestionThreshold).suggestions = []) := by
  cases h : (matchCelebrityName fuse userInput c).isCorrect <;>
    simp [matchWithSuggestions, h]

/-! ## Letter case -/

/-- The code of the lower-case form of an upper-case ASCII letter. -/
theorem toNat_ofNat_lower (n : Nat) (h1 : 0x41 ≤ n) (h2 : n ≤ 0x5A) :
    (Char.ofNat (n + 32)).toNat = n + 32 := by
  interval_cases n <;> rfl

/-- The code of `lowerChar c`. -/
theorem toNat_lowerChar (c : Char) :
    (lowerChar c).toNat = if 0x41 ≤ c.toNat ∧ c.toNat ≤ 0x5A then c.toNat + 32 else c.toNat := by
  unfold lowerChar
  split
  · next h => exact toNat_ofNat_lower c.toNat h.1 h.2
  · rfl

/-- A character that is no upper-case ASCII letter is its own lower case. -/
theorem lowerChar_of_not_upper (c : Char) (h : ¬ (0x41 ≤ c.toNat ∧ c.toNat ≤ 0x5A)) :
    lowerChar c = c := by
  simp [lowerChar, h]

/-- Lower-casing a character twice is lower-casing it once. -/
theorem lowerChar_idem (c : Char) : lowerChar (lowerChar c) = lowerChar c := by
  apply lowerChar_of_not_upper
  rw [toNat_lowerChar]
  split <;> omega

/-- `toLowerCase` is idempotent. -/
theorem toLowerCase_idem (s : List Char) : toLowerCase (toLowerCase s) = toLowerCase s := by
  simp [toLowerCase, lowerChar_idem]

/-- Two characters related by `sameLetter` have the same lower case. -/
theorem lowerChar_eq_of_sameLetter (a b : Char) (h : sameLetter a b = true) :
    lowerChar a = lowerChar b := by
  simp only [sameLetter, Bool.or_eq_true, Bool.and_eq_true, decide_eq_true_eq, beq_iff_eq] at h
  rcases h with (h | ⟨⟨h1, h2⟩, h3⟩) | ⟨⟨h1, h2⟩, h3⟩
  · rw [h]
  · have hb : lowerChar b = b := lowerChar_of_not_upper b (by omega)
    rw [hb, lowerChar, if_pos ⟨h1, h2⟩, ← h3, Char.ofNat_toNat]
  · have ha : lowerChar a = a := lowerChar_of_not_upper a (by omega)
    rw [ha, lowerChar, if_pos ⟨h1, h2⟩, ← h3, Char.ofNat_toNat]

/-- Strings that differ only in case have the same `toLowerCase`. -/
theorem toLowerCase_eq_of_differOnlyInCase (x y : List Char)
    (h : differOnlyInCase x y = true) : toLowerCase x = toLowerCase y := by
  induction x generalizing y with
  | nil => cases y with
    | nil => rfl
    | cons b y => simp [differOnlyInCase] at h
  | cons a x ih => cases y with
    | nil => simp [differOnlyInCase] at h
    | cons b y =>
      simp only [differOnlyInCase, Bool.and_eq_true] at h
      simp only [toLowerCase, List.map_cons, List.cons.injEq]
      exact ⟨lowerChar_eq_of_sameLetter a b h.1, ih y h.2⟩

/-- A string that differs only in case from an ASCII string is ASCII. -/
theorem isAscii_of_differOnlyInCase (x y : List Char)
    (h : differOnlyInCase x y = true) (hy : isAscii y = true) : isAscii x = true := by
  induction x generalizing y with
  | nil => rfl
  | cons a x ih => cases y with
    | nil => simp [differOnlyInCase] at h
    | cons b y =>
      simp only [differOnlyInCase, Bool.and_eq_true] at h
      simp only [isAscii, List.all_cons, Bool.and_eq_true, decide_eq_true_eq] at hy ⊢
      refine ⟨?_, ih y h.2 hy.2⟩
      have hs := h.1
      simp only [sameLetter, Bool.or_eq_true, Bool.and_eq_true, decide_eq_true_eq,
        beq_iff_eq] at hs
      rcases hs with (hs | ⟨⟨_, _⟩, _⟩) | ⟨⟨_, _⟩, _⟩
      · rw [hs]; exact hy.1
      · omega
      · omega

/-- The lower case of an ASCII string is ASCII. -/
theorem isAscii_toLowerCase (x : List Char) (h : isAscii x = true) :
    isAscii (toLowerCase x) = true := by
  simp only [isAscii, toLowerCase, List.all_eq_true, decide_eq_true_eq, List.mem_map,
    forall_exists_index, and_imp, forall_apply_eq_imp_iff₂] at h ⊢
  intro c hc
  have := h c hc
  rw [toNat_lowerChar]
  split <;> omega

/-- No ASCII character has an entry in `arabicToEnglish`. -/
theorem EnhancedFuzzyMatcher.lookup_ascii (c : Char) (h : c.toNat < 128) :
    EnhancedFuzzyMatcher.arabicToEnglish.lookup c = none := by
  rw [List.lookup_eq_none_iff]
  intro p hp
  have hkeys : ∀ q ∈ EnhancedFuzzyMatcher.arabicToEnglish, 128 ≤ q.1.toNat := by decide
  have := hkeys p hp
  simp only [bne_iff_ne, ne_eq]
  intro hcp
  rw [hcp] at h
  omega

/-- Transliteration leaves an ASCII string as it is. -/
theorem EnhancedFuzzyMatcher.transliterate_ascii (x : List Char) (h : isAscii x = true) :
    EnhancedFuzzyMatcher.transliterate x = x := by
  induction x with
  | nil => rfl
  | cons a x ih =>
    simp only [isAscii, List.all_cons, Bool.and_eq_true, decide_eq_true_eq] at h
    have hx : isAscii x = true := h.2
    have := ih hx
    simp only [EnhancedFuzzyMatcher.transliterate, List.flatMap_cons] at this ⊢
    rw [this, EnhancedFuzzyMatcher.lookup_ascii a h.1]
    rfl

/-- The enhanced normalizer gives an ASCII string and its lower case the same
normalized form. -/
theorem EnhancedFuzzyMatcher.normalize_toLowerCase (x : List Char) (h : isAscii x = true) :
    EnhancedFuzzyMatcher.normalizeArabicName (some (toLowerCase x)) =
      EnhancedFuzzyMatcher.normalizeArabicName (some x) := by
  cases x with
  | nil => rfl
  | cons a x =>
    have h1 := EnhancedFuzzyMatcher.transliterate_ascii (a :: x) h
    have h2 := EnhancedFuzzyMatcher.transliterate_ascii (toLowerCase (a :: x))
      (isAscii_toLowerCase (a :: x) h)
    simp only [EnhancedFuzzyMatcher.normalizeArabicName, EnhancedFuzzyMatcher.normalizeSteps,
      h1, h2, toLowerCase_idem]
    simp [toLowerCase]

/-- The basic normalizer gives a string and its lower case the same
normalized form. -/
theorem FuzzyMatcher.basic_normalize_toLowerCase (x : List Char) :
    FuzzyMatcher.normalizeArabicName (some (toLowerCase x)) =
      FuzzyMatcher.normalizeArabicName (some x) := by
  cases x with
  | nil => rfl
  | cons a x =>
    simp only [FuzzyMatcher.normalizeArabicName, FuzzyMatcher.normalizeSteps, toLowerCase_idem]
    simp [toLowerCase]

/-- The enhanced normalizer does not see the letter case of ASCII strings. -/
theorem EnhancedFuzzyMatcher.normalize_eq_of_differOnlyInCase (x y : List Char)
    (hy : isAscii y = true) (h : differOnlyInCase x y = true) :
    EnhancedFuzzyMatcher.normalizeArabicName (some x) =
      EnhancedFuzzyMatcher.normalizeArabicName (some y) := by
  rw [← EnhancedFuzzyMatcher.normalize_toLowerCase x (isAscii_of_differOnlyInCase x y h hy),
    ← EnhancedFuzzyMatcher.normalize_toLowerCase y hy, toLowerCase_eq_of_differOnlyInCase x y h]

/-- The basic normalizer does not see the letter case of ASCII letters. -/
theorem FuzzyMatcher.basic_normalize_eq_of_differOnlyInCase (x y : List Char)
    (h : differOnlyInCase x y = true) :
    FuzzyMatcher.normalizeArabicName (some x) = FuzzyMatcher.normalizeArabicName (some y) := by
  rw [← FuzzyMatcher.basic_normalize_toLowerCase x, ← FuzzyMatcher.basic_normalize_toLowerCase y,
    toLowerCase_eq_of_differOnlyInCase x y h]

open EnhancedFuzzyMatcher in
/-- C7. For ASCII inputs `x` and `y` that differ only in the case of their
letters, `normalizeArabicName` gives the same normalized form and
`matchCelebrityName` the same `isCorrect`, `score` and `matchedName`, for every
record. -/
theorem case_invariance (fuse : FuseSearch) (x y : List Char) (c : CelebrityData)
    (hx : isAscii x = true) (hy : isAscii y = true) (hxy : differOnlyInCase x y = true) :
    normalizeArabicName (some x) = normalizeArabicName (some y) ∧
    matchCelebrityName fuse (some x) c = matchCelebrityName fuse (some y) c := by
  have hn : normalizeArabicName (some x) = normalizeArabicName (some y) := by
    rw [← normalize_toLowerCase x hx, ← normalize_toLowerCase y hy,
      toLowerCase_eq_of_differOnlyInCase x y hxy]
  exact ⟨hn, by simp only [matchCelebrityName, hn]⟩

open EnhancedFuzzyMatcher in
/-- C7, at the inputs 'MOHAMMED SALAH' and 'Mohammed Salah' for the record
'Mohamed Salah'. -/
theorem case_invariance_witness :
    normalizeArabicName (some "MOHAMMED SALAH".toList)
      = normalizeArabicName (some "Mohammed Salah".toList) ∧
    matchCelebrityName (fun _ _ => []) (some "MOHAMMED SALAH".toList)
      ⟨"Mohamed Salah".toList, none, none⟩
      = matchCelebrityName (fun _ _ => []) (some "Mohammed Salah".toList)
      ⟨"Mohamed Salah".toList, none, none⟩ :=
  case_invariance (fun _ _ => []) "MOHAMMED SALAH".toList "Mohammed Salah".toList
    ⟨"Mohamed Salah".toList, none, none⟩ (by decide) (by decide) (by decide)

/-- What both normalizers do with the three spellings, alone and before
' salah', in lower case. -/
theorem mohammedFamily_normalized :
    ∀ s ∈ mohammedFamily,
      isAscii s = true ∧ isAscii (s ++ " salah".toList) = true ∧
      EnhancedFuzzyMatcher.normalizeArabicName (some s) = "muhammad".toList ∧
      EnhancedFuzzyMatcher.normalizeArabicName (some (s ++ " salah".toList))
        = "muhammad salah".toList ∧
      FuzzyMatcher.normalizeArabicName (some (s ++ " salah".toList))
        = "muhammad salah".toList := by
  decide

open EnhancedFuzzyMatcher in
/-- C8. `normalizeArabicName` maps each of 'mohammed', 'mohamed' and
'mohammad', in any letter case, to 'muhammad'; and for two of these spellings
`s1` and `s2`, an input that is `s1` followed by ' salah' (in any letter case)
is correct with score 100 for a record whose name is `s2` followed by ' salah'
(in any letter case), in the enhanced matcher and in the basic one. -/
theorem mohammed_family_folding (fuse fuseBasic : FuseSearch) (s1 s2 w x : List Char)
    (c : CelebrityData)
    (h1 : s1 ∈ mohammedFamily) (h2 : s2 ∈ mohammedFamily)
    (hw : differOnlyInCase w s1 = true)
    (hx : differOnlyInCase x (s1 ++ " salah".toList) = true)
    (hc : differOnlyInCase c.name (s2 ++ " salah".toList) = true) :
    normalizeArabicName (some w) = "muhammad".toList ∧
    (matchCelebrityName fuse (some x) c).isCorrect = true ∧
    (matchCelebrityName fuse (some x) c).score = 100 ∧
    (FuzzyMatcher.matchCelebrityName fuseBasic (some x) c).isCorrect = true ∧
    (FuzzyMatcher.matchCelebrityName fuseBasic (some x) c).score = 100 := by
  obtain ⟨a1, b1, n1, e1, f1⟩ := mohammedFamily_normalized s1 h1
  obtain ⟨_, b2, _, e2, f2⟩ := mohammedFamily_normalized s2 h2
  have hwn : normalizeArabicName (some w) = "muhammad".toList :=
    (normalize_eq_of_differOnlyInCase w s1 a1 hw).trans n1
  have hxn : normalizeArabicName (some x) = normalizeArabicName (some c.name) :=
    ((normalize_eq_of_differOnlyInCase x _ b1 hx).trans e1).trans
      ((normalize_eq_of_differOnlyInCase c.name _ b2 hc).trans e2).symm
  have hxb : FuzzyMatcher.normalizeArabicName (some x)
      = FuzzyMatcher.normalizeArabicName (some c.name) :=
    ((FuzzyMatcher.basic_normalize_eq_of_differOnlyInCase x _ hx).trans f1).trans
      ((FuzzyMatcher.basic_normalize_eq_of_differOnlyInCase c.name _ hc).trans f2).symm
  refine ⟨hwn, ?_, ?_, ?_, ?_⟩
  · simp [matchCelebrityName, hxn]
  · simp [matchCelebrityName, hxn]
  · simp [FuzzyMatcher.matchCelebrityName, hxb]
  · simp [FuzzyMatcher.matchCelebrityName, hxb]

open EnhancedFuzzyMatcher in
/-- C8, at the input 'MOHAMMED SALAH' for the record 'Mohamed Salah'. -/
theorem mohammed_family_folding_witness :
    normalizeArabicName (some "MOHAMMED".toList) = "muhammad".toList ∧
    (matchCelebrityName (fun _ _ => []) (some "MOHAMMED SALAH".toList)
      ⟨"Mohamed Salah".toList, none, none⟩).isCorrect = true ∧
    (matchCelebrityName (fun _ _ => []) (some "MOHAMMED SALAH".toList)
      ⟨"Mohamed Salah".toList, none, none⟩).score = 100 ∧
    (FuzzyMatcher.matchCelebrityName (fun _ _ => []) (some "MOHAMMED SALAH".toList)
      ⟨"Mohamed Salah".toList, none, none⟩).isCorrect = true ∧
    (FuzzyMatcher.matchCelebrityName (fun _ _ => []) (some "MOHAMMED SALAH".toList)
      ⟨"Mohamed Salah".toList, none, none⟩).score = 100 :=
  mohammed_family_folding (fun _ _ => []) (fun _ _ => []) "mohammed".toList "mohamed".toList
    "MOHAMMED".toList "MOHAMMED SALAH".toList ⟨"Mohamed Salah".toList, none, none⟩
    (by decide) (by decide) (by decide) (by decide) (by decide)

/-! ## The characters of a normalized form -/

/-- `trim` drops white space at the end of what `dropWhile` left. -/
theorem trim_eq (s : List Char) :
    trim s = List.rdropWhile isWhiteSpace (List.dropWhile isWhiteSpace s) := rfl

/-- A character of `trim s` is a character of `s`. -/
theorem mem_of_mem_trim (s : List Char) (c : Char) (h : c ∈ trim s) : c ∈ s := by
  rw [trim_eq] at h
  exact (List.dropWhile_suffix isWhiteSpace).subset
    ((List.rdropWhile_prefix isWhiteSpace _).subset h)

/-- A character of a literal replacement comes from the subject or from the
replacement text. -/
theorem mem_replaceAllAux (pat rep : List Char) (k : Nat) (s : List Char) (c : Char)
    (h : c ∈ replaceAllAux pat rep k s) : c ∈ s ∨ c ∈ rep := by
  induction s generalizing k with
  | nil => simp [replaceAllAux] at h
  | cons a s ih =>
    cases k with
    | succ k =>
      simp only [replaceAllAux] at h
      rcases ih k h with h | h
      · exact Or.inl (List.mem_cons_of_mem a h)
      · exact Or.inr h
    | zero =>
      simp only [replaceAllAux] at h
      split at h
      · rcases List.mem_append.mp h with h | h
        · exact Or.inr h
        · rcases ih _ h with h | h
          · exact Or.inl (List.mem_cons_of_mem a h)
          · exact Or.inr h
      · rcases List.mem_cons.mp h with h | h
        · exact Or.inl (h ▸ List.mem_cons_self a s)
        · rcases ih _ h with h | h
          · exact Or.inl (List.mem_cons_of_mem a h)
          · exact Or.inr h

/-- A character of a whole-word replacement comes from the subject or from the
replacement text. -/
theorem mem_replaceWordAux (pat rep : List Char) (prev : Option Char) (k : Nat)
    (s : List Char) (c : Char)
    (h : c ∈ replaceWordAux pat rep prev k s) : c ∈ s ∨ c ∈ rep := by
  induction s generalizing k prev with
  | nil => simp [replaceWordAux] at h
  | cons a s ih =>
    cases k with
    | succ k =>
      simp only [replaceWordAux] at h
      rcases ih _ k h with h | h
      · exact Or.inl (List.mem_cons_of_mem a h)
      · exact Or.inr h
    | zero =>
      simp only [replaceWordAux] at h
      split at h
      · rcases List.mem_append.mp h with h | h
        · exact Or.inr h
        · rcases ih _ _ h with h | h
          · exact Or.inl (List.mem_cons_of_mem a h)
          · exact Or.inr h
      · rcases List.mem_cons.mp h with h | h
        · exact Or.inl (h ▸ List.mem_cons_self a s)
        · rcases ih _ _ h with h | h
          · exact Or.inl (List.mem_cons_of_mem a h)
          · exact Or.inr h

/-- A property of characters that holds on the subject and on every
replacement text of a table holds after the loop of literal replacements. -/
theorem EnhancedFuzzyMatcher.forall_applyReplacements (Q : Char → Prop)
    (table : List (List Char × List Char)) (s : List Char)
    (ht : ∀ e ∈ table, ∀ c ∈ e.2, Q c) (hs : ∀ c ∈ s, Q c) :
    ∀ c ∈ EnhancedFuzzyMatcher.applyReplacements table s, Q c := by
  induction table generalizing s with
  | nil => exact hs
  | cons e table ih =>
    simp only [EnhancedFuzzyMatcher.applyReplacements, List.foldl_cons]
    apply ih
    · exact fun e' he' => ht e' (List.mem_cons_of_mem e he')
    · intro c hc
      rcases mem_replaceAllAux e.1 e.2 0 s c hc with h | h
      · exact hs c h
      · exact ht e (List.mem_cons_self e table) c h

/-- A property of characters that holds on the subject and on every
replacement text of a table holds after the loop of whole-word replacements. -/
theorem EnhancedFuzzyMatcher.forall_applyVariations (Q : Char → Prop)
    (table : List (List Char × List Char)) (s : List Char)
    (ht : ∀ e ∈ table, ∀ c ∈ e.2, Q c) (hs : ∀ c ∈ s, Q c) :
    ∀ c ∈ EnhancedFuzzyMatcher.applyVariations table s, Q c := by
  induction table generalizing s with
  | nil => exact hs
  | cons e table ih =>
    simp only [EnhancedFuzzyMatcher.applyVariations, List.foldl_cons]
    apply ih
    · exact fun e' he' => ht e' (List.mem_cons_of_mem e he')
    · intro c hc
      rcases mem_replaceWordAux e.1 e.2 none 0 s c hc with h | h
      · exact hs c h
      · exact ht e (List.mem_cons_self e table) c h

/-- A character after the prefix step is a character of the string, a space,
or a character of one of the prefixes. -/
theorem mem_normalizePrefix (ps : List (List Char)) (s : List Char) (c : Char)
    (h : c ∈ normalizePrefix ps s) : c ∈ s ∨ c = ' ' ∨ ∃ p ∈ ps, c ∈ p := by
  induction ps with
  | nil => exact Or.inl h
  | cons p ps ih =>
    simp only [normalizePrefix] at h
    split at h
    · rcases List.mem_append.mp h with h | h
      · exact Or.inr (Or.inr ⟨p, List.mem_cons_self p ps, (List.mem_filter.mp h).1⟩)
      · rcases List.mem_cons.mp h with h | h
        · exact Or.inr (Or.inl h)
        · exact Or.inl (List.mem_of_mem_drop (mem_of_mem_trim _ c h))
    · rcases ih h with h | h | ⟨q, hq, hc⟩
      · exact Or.inl h
      · exact Or.inr (Or.inl h)
      · exact Or.inr (Or.inr ⟨q, List.mem_cons_of_mem p hq, hc⟩)

/-- A character after the collapse of white space is a character of the
string or a space. -/
theorem mem_collapseAux (b : Bool) (s : List Char) (c : Char)
    (h : c ∈ collapseAux b s) : c ∈ s ∨ c = ' ' := by
  induction s generalizing b with
  | nil => simp [collapseAux] at h
  | cons a s ih =>
    simp only [collapseAux] at h
    split at h
    · split at h
      · rcases ih _ h with h | h
        · exact Or.inl (List.mem_cons_of_mem a h)
        · exact Or.inr h
      · rcases List.mem_cons.mp h with h | h
        · exact Or.inr h
        · rcases ih _ h with h | h
          · exact Or.inl (List.mem_cons_of_mem a h)
          · exact Or.inr h
    · rcases List.mem_cons.mp h with h | h
      · exact Or.inl (h ▸ List.mem_cons_self a s)
      · rcases ih _ h with h | h
        · exact Or.inl (List.mem_cons_of_mem a h)
        · exact Or.inr h

/-- A value found by `lookup` is the second component of an entry. -/
theorem exists_mem_of_lookup (l : List (Char × List Char)) (a : Char) (v : List Char)
    (h : l.lookup a = some v) : ∃ e ∈ l, e.2 = v := by
  induction l with
  | nil => simp at h
  | cons e l ih =>
    obtain ⟨k, u⟩ := e
    rw [List.lookup_cons] at h
    split at h
    · exact ⟨(k, u), List.mem_cons_self _ _, by simpa using h⟩
    · obtain ⟨e', he', hv⟩ := ih h
      exact ⟨e', List.mem_cons_of_mem _ he', hv⟩

/-- After transliteration no character has an entry in `arabicToEnglish`. -/
theorem EnhancedFuzzyMatcher.lookup_of_mem_transliterate (x : List Char) (c : Char)
    (h : c ∈ EnhancedFuzzyMatcher.transliterate x) :
    EnhancedFuzzyMatcher.arabicToEnglish.lookup c = none := by
  simp only [EnhancedFuzzyMatcher.transliterate, List.mem_flatMap] at h
  obtain ⟨a, _, hc⟩ := h
  cases hl : EnhancedFuzzyMatcher.arabicToEnglish.lookup a with
  | none =>
    rw [hl] at hc
    simp only [Option.getD_none, List.mem_singleton] at hc
    rw [hc]; exact hl
  | some v =>
    rw [hl] at hc
    simp only [Option.getD_some] at hc
    obtain ⟨e, he, hv⟩ := exists_mem_of_lookup _ a v hl
    have hvalues : ∀ e ∈ EnhancedFuzzyMatcher.arabicToEnglish, ∀ d ∈ e.2, d.toNat < 128 := by
      decide
    exact EnhancedFuzzyMatcher.lookup_ascii c (hvalues e he c (hv ▸ hc))

/-- Lower-casing a character without table entry gives a character without
table entry that is no upper-case ASCII letter. -/
theorem lowerChar_settled (c : Char)
    (h : EnhancedFuzzyMatcher.arabicToEnglish.lookup c = none) :
    EnhancedFuzzyMatcher.arabicToEnglish.lookup (lowerChar c) = none ∧
    ¬ (0x41 ≤ (lowerChar c).toNat ∧ (lowerChar c).toNat ≤ 0x5A) := by
  by_cases hu : 0x41 ≤ c.toNat ∧ c.toNat ≤ 0x5A
  · have hn := toNat_lowerChar c
    rw [if_pos hu] at hn
    exact ⟨EnhancedFuzzyMatcher.lookup_ascii _ (by omega), by omega⟩
  · rw [lowerChar_of_not_upper c hu]
    exact ⟨h, hu⟩

/-- Every character of a normalized form is settled. -/
theorem EnhancedFuzzyMatcher.settled_normalizeSteps (x : List Char) :
    ∀ c ∈ EnhancedFuzzyMatcher.normalizeSteps x, isSettled c = true := by
  have h1 : ∀ c ∈ removeDiacritics (trim (toLowerCase (EnhancedFuzzyMatcher.transliterate x))),
      isSettled c = true := by
    intro c hc
    obtain ⟨hmem, hd⟩ := List.mem_filter.mp hc
    have hmem2 := mem_of_mem_trim _ c hmem
    simp only [toLowerCase, List.mem_map] at hmem2
    obtain ⟨a, ha, hac⟩ := hmem2
    obtain ⟨hl, hu⟩ := lowerChar_settled a
      (EnhancedFuzzyMatcher.lookup_of_mem_transliterate x a ha)
    rw [hac] at hl hu
    simp only [isSettled, hl, Option.isNone_none, Bool.true_and, Bool.and_eq_true,
      Bool.not_eq_true', Bool.and_eq_false_iff, decide_eq_false_iff_not]
    simp only [Bool.not_eq_true'] at hd
    exact ⟨by omega, hd⟩
  have h2 := EnhancedFuzzyMatcher.forall_applyReplacements (fun c => isSettled c = true)
    EnhancedFuzzyMatcher.replacements _ (by decide) h1
  have h3 := EnhancedFuzzyMatcher.forall_applyVariations (fun c => isSettled c = true)
    EnhancedFuzzyMatcher.commonVariations _ (by decide) h2
  intro c hc
  simp only [EnhancedFuzzyMatcher.normalizeSteps] at hc
  rcases mem_collapseAux _ _ c (mem_of_mem_trim _ c hc) with hc | hc
  · rcases mem_normalizePrefix _ _ c hc with hc | hc | ⟨p, hp, hc⟩
    · exact h3 c hc
    · rw [hc]; decide
    · have hpre : ∀ p ∈ arabicPrefixes, ∀ d ∈ p, isSettled d = true := by decide
      exact hpre p hp c hc
  · rw [hc]; decide

/-! ## Steps that leave a normalized form alone -/

/-- Transliteration leaves a string without table characters as it is. -/
theorem EnhancedFuzzyMatcher.transliterate_of_settled (y : List Char)
    (h : ∀ c ∈ y, isSettled c = true) : EnhancedFuzzyMatcher.transliterate y = y := by
  induction y with
  | nil => rfl
  | cons a y ih =>
    have ha := h a (List.mem_cons_self a y)
    simp only [isSettled, Bool.and_eq_true, Option.isNone_iff_eq_none] at ha
    have := ih (fun c hc => h c (List.mem_cons_of_mem a hc))
    simp only [EnhancedFuzzyMatcher.transliterate, List.flatMap_cons] at this ⊢
    rw [this, ha.1.1]
    rfl

/-- Lower-casing leaves a string without upper-case ASCII letters as it is. -/
theorem toLowerCase_of_settled (y : List Char)
    (h : ∀ c ∈ y, isSettled c = true) : toLowerCase y = y := by
  induction y with
  | nil => rfl
  | cons a y ih =>
    have ha := h a (List.mem_cons_self a y)
    simp only [isSettled, Bool.and_eq_true, Bool.not_eq_true', Bool.and_eq_false_iff,
      decide_eq_false_iff_not] at ha
    have := ih (fun c hc => h c (List.mem_cons_of_mem a hc))
    simp only [toLowerCase, List.map_cons] at this ⊢
    rw [this, lowerChar_of_not_upper a (by omega)]

/-- The removal of diacritics leaves a string without diacritics as it is. -/
theorem removeDiacritics_of_settled (y : List Char)
    (h : ∀ c ∈ y, isSettled c = true) : removeDiacritics y = y := by
  rw [removeDiacritics, List.filter_eq_self]
  intro c hc
  have := h c hc
  simp only [isSettled, Bool.and_eq_true] at this
  exact this.2

/-- What `dropWhile` leaves is empty or starts with a character failing the
test. -/
theorem dropWhile_nil_or_cons (p : Char → Bool) (s : List Char) :
    List.dropWhile p s = [] ∨ ∃ a t, List.dropWhile p s = a :: t ∧ p a = false := by
  induction s with
  | nil => exact Or.inl rfl
  | cons a s ih =>
    cases hp : p a with
    | true => rw [List.dropWhile_cons_of_pos hp]; exact ih
    | false =>
      rw [List.dropWhile_cons_of_neg (by simp [hp])]
      exact Or.inr ⟨a, s, rfl, hp⟩

/-- Dropping at the end keeps a first character that fails the test. -/
theorem rdropWhile_cons_of_neg (p : Char → Bool) (a : Char) (t : List Char)
    (h : p a = false) : List.rdropWhile p (a :: t) = a :: List.rdropWhile p t := by
  induction t using List.reverseRecOn with
  | nil => simp [List.rdropWhile_singleton, h]
  | append_singleton t x ih =>
    rw [← List.cons_append, List.rdropWhile_concat, List.rdropWhile_concat, ih]
    split <;> rfl

/-- `trim` is idempotent. -/
theorem trim_trim (s : List Char) : trim (trim s) = trim s := by
  have key : List.dropWhile isWhiteSpace (trim s) = trim s := by
    rw [trim_eq]
    rcases dropWhile_nil_or_cons isWhiteSpace s with h | ⟨a, t, h, ha⟩
    · rw [h]; rfl
    · rw [h, rdropWhile_cons_of_neg isWhiteSpace a t ha,
        List.dropWhile_cons_of_neg (by simp [ha])]
  rw [trim_eq (trim s), key, trim_eq, List.rdropWhile_idempotent]

/-- The collapse of white space leaves a collapsed string as it is. -/
theorem collapseAux_of_isCollapsed (b : Bool) (s : List Char)
    (h : isCollapsed b s = true) : collapseAux b s = s := by
  induction s generalizing b with
  | nil => rfl
  | cons c cs ih =>
    simp only [isCollapsed] at h
    simp only [collapseAux]
    split at h
    · next hw =>
      simp only [Bool.and_eq_true, beq_iff_eq, Bool.not_eq_true'] at h
      obtain ⟨⟨hc, hb⟩, hcs⟩ := h
      rw [if_pos hw, hb, ih true hcs, hc]
      rfl
    · next hw => simp [hw, ih false h]

/-- The collapse of white space gives a collapsed string. -/
theorem isCollapsed_collapseAux (b : Bool) (s : List Char) :
    isCollapsed b (collapseAux b s) = true := by
  induction s generalizing b with
  | nil => rfl
  | cons c cs ih =>
    simp only [collapseAux]
    by_cases hw : isWhiteSpace c = true
    · cases b with
      | true => simpa [hw] using ih true
      | false =>
        have hsp : isWhiteSpace ' ' = true := by decide
        simp [hw, isCollapsed, hsp, ih true]
    · simp [hw, isCollapsed, ih false]

/-- What `dropWhile isWhiteSpace` leaves of a collapsed string is collapsed,
whatever stands before it. -/
theorem isCollapsed_dropWhile (b b' : Bool) (s : List Char)
    (h : isCollapsed b s = true) :
    isCollapsed b' (List.dropWhile isWhiteSpace s) = true := by
  induction s generalizing b with
  | nil => rfl
  | cons c cs ih =>
    simp only [isCollapsed] at h
    by_cases hw : isWhiteSpace c = true
    · rw [List.dropWhile_cons_of_pos hw]
      simp only [hw, if_true, Bool.and_eq_true] at h
      exact ih true h.2
    · rw [List.dropWhile_cons_of_neg hw]
      simp only [hw] at h
      simpa [isCollapsed, hw] using h

/-- A prefix of a collapsed string is collapsed. -/
theorem isCollapsed_of_append (b : Bool) (s t : List Char)
    (h : isCollapsed b (s ++ t) = true) : isCollapsed b s = true := by
  induction s generalizing b with
  | nil => rfl
  | cons c cs ih =>
    simp only [List.cons_append, isCollapsed] at h ⊢
    by_cases hw : isWhiteSpace c = true
    · simp only [hw, if_true, Bool.and_eq_true] at h ⊢
      exact ⟨h.1, ih true h.2⟩
    · simp only [hw] at h ⊢
      exact ih false h

/-- The trimmed form of a collapsed string is collapsed. -/
theorem isCollapsed_trim (s : List Char) (h : isCollapsed false s = true) :
    isCollapsed false (trim s) = true := by
  rw [trim_eq]
  obtain ⟨t, ht⟩ := List.rdropWhile_prefix isWhiteSpace (List.dropWhile isWhiteSpace s)
  apply isCollapsed_of_append false _ t
  rw [ht]
  exact isCollapsed_dropWhile false false s h

/-! ## Idempotence of the enhanced normalizer -/

/-- The steps of the enhanced normalizer, in order. -/
theorem EnhancedFuzzyMatcher.normalizeSteps_eq (y : List Char) :
    EnhancedFuzzyMatcher.normalizeSteps y =
      trim (collapseSpaces (normalizePrefix arabicPrefixes
        (EnhancedFuzzyMatcher.applyVariations EnhancedFuzzyMatcher.commonVariations
          (EnhancedFuzzyMatcher.applyReplacements EnhancedFuzzyMatcher.replacements
            (removeDiacritics (trim (toLowerCase
              (EnhancedFuzzyMatcher.transliterate y)))))))) := rfl

open EnhancedFuzzyMatcher in
/-- C2, as stated, fails: 'Abdallah' normalizes to 'abd allah', and
'abd allah' normalizes to 'abd ullah'. -/
theorem normalize_not_idempotent :
    normalizeArabicName (some "Abdallah".toList) = "abd allah".toList ∧
    normalizeArabicName (some (normalizeArabicName (some "Abdallah".toList)))
      = "abd ullah".toList ∧
    normalizeArabicName (some (normalizeArabicName (some "Abdallah".toList)))
      ≠ normalizeArabicName (some "Abdallah".toList) := by
  decide

open EnhancedFuzzyMatcher in
/-- C2, amended. `normalizeArabicName(normalizeArabicName(x))` equals
`normalizeArabicName(x)` for every string `x` whose normalized form is left
unchanged by the digraph replacements, by the whole-word variant replacements
and by the prefix step: transliteration, lower-casing, trimming, the removal
of diacritics and the collapse of white space change no normalized form. -/
theorem normalize_idempotent_of_stable (x : List Char)
    (hfold : applyReplacements replacements (normalizeArabicName (some x))
      = normalizeArabicName (some x))
    (hvar : applyVariations commonVariations (normalizeArabicName (some x))
      = normalizeArabicName (some x))
    (hpre : normalizePrefix arabicPrefixes (normalizeArabicName (some x))
      = normalizeArabicName (some x)) :
    normalizeArabicName (some (normalizeArabicName (some x)))
      = normalizeArabicName (some x) := by
  by_cases hx : x.isEmpty = true
  · simp [normalizeArabicName, hx]
  · have hy : normalizeArabicName (some x) = normalizeSteps x := by
      simp [normalizeArabicName, hx]
    rw [hy] at hfold hvar hpre ⊢
    by_cases he : (normalizeSteps x).isEmpty = true
    · simp only [normalizeArabicName, he, if_true]
      exact (List.isEmpty_iff.mp he).symm
    · have hs := settled_normalizeSteps x
      have htrim : trim (normalizeSteps x) = normalizeSteps x := by
        simp only [normalizeSteps]; exact trim_trim _
      have hcol : collapseSpaces (normalizeSteps x) = normalizeSteps x := by
        apply collapseAux_of_isCollapsed
        simp only [normalizeSteps]
        exact isCollapsed_trim _ (isCollapsed_collapseAux false _)
      simp only [normalizeArabicName, he]
      show normalizeSteps (normalizeSteps x) = normalizeSteps x
      generalize normalizeSteps x = y at hfold hvar hpre hs htrim hcol
      rw [normalizeSteps_eq y, transliterate_of_settled y hs, toLowerCase_of_settled y hs,
        htrim, removeDiacritics_of_settled y hs, hfold, hvar, hpre, hcol, htrim]

open EnhancedFuzzyMatcher in
/-- C2, amended, at 'Mohammed Salah', whose normalized form is
'muhammad salah'. -/
theorem normalize_idempotent_of_stable_witness :
    normalizeArabicName (some "Mohammed Salah".toList) = "muhammad salah".toList ∧
    normalizeArabicName (some (normalizeArabicName (some "Mohammed Salah".toList)))
      = normalizeArabicName (some "Mohammed Salah".toList) :=
  ⟨by decide, normalize_idempotent_of_stable "Mohammed Salah".toList
    (by decide) (by decide) (by decide)⟩

/-! ## The basic matcher: aliases and the normalizer on the test names -/

/-- In the basic matcher the alias loop accepts, at its first hit, an input
whose normalized form is that of a listed alias. -/
theorem FuzzyMatcher.matchAliases_of_mem (normalizedInput : List Char)
    (aliases : List (List Char)) (a : List Char) (hmem : a ∈ aliases)
    (heq : normalizedInput = FuzzyMatcher.normalizeArabicName (some a)) :
    ∃ b, FuzzyMatcher.matchAliases normalizedInput aliases = some ⟨true, 100, some b⟩ := by
  induction aliases with
  | nil => cases hmem
  | cons b rest ih =>
    by_cases hb : normalizedInput = FuzzyMatcher.normalizeArabicName (some b)
    · exact ⟨b, by simp [FuzzyMatcher.matchAliases, ← hb]⟩
    · have hmem2 : a ∈ rest := by
        rcases List.mem_cons.mp hmem with h | h
        · exact absurd (h ▸ heq) hb
        · exact h
      obtain ⟨b', hb'⟩ := ih hmem2
      exact ⟨b', by simp [FuzzyMatcher.matchAliases, hb, hb']⟩

/-- C15. In the basic matcher, for every record and every alias `a` of its
alias list, `matchCelebrityName(a, record)` is correct with score 100,
whatever the approximate search is. -/
theorem basic_alias_is_accepted (fuse : FuseSearch) (c : CelebrityData) (a : List Char)
    (hmem : a ∈ aliasesOrEmpty c) :
    (FuzzyMatcher.matchCelebrityName fuse (some a) c).isCorrect = true ∧
    (FuzzyMatcher.matchCelebrityName fuse (some a) c).score = 100 := by
  by_cases hname : FuzzyMatcher.normalizeArabicName (some a)
      = FuzzyMatcher.normalizeArabicName (some c.name)
  · simp [FuzzyMatcher.matchCelebrityName, hname]
  · obtain ⟨b, hb⟩ := FuzzyMatcher.matchAliases_of_mem
      (FuzzyMatcher.normalizeArabicName (some a)) (aliasesOrEmpty c) a hmem rfl
    simp [FuzzyMatcher.matchCelebrityName, hname, hb]

/-- C15, at the alias 'Omar El-Sharif' of the record 'Omar Sharif' and at the
alias 'Mo Salah' of the record 'Mohammed Salah'. -/
theorem basic_alias_is_accepted_witness :
    ((FuzzyMatcher.matchCelebrityName (fun _ _ => []) (some "Omar El-Sharif".toList)
        ⟨"Omar Sharif".toList,
          some ["Omar El-Sharif".toList, "Michel Demitri Shalhoub".toList], none⟩).isCorrect
        = true ∧
      (FuzzyMatcher.matchCelebrityName (fun _ _ => []) (some "Omar El-Sharif".toList)
        ⟨"Omar Sharif".toList,
          some ["Omar El-Sharif".toList, "Michel Demitri Shalhoub".toList], none⟩).score
        = 100) ∧
    ((FuzzyMatcher.matchCelebrityName (fun _ _ => []) (some "Mo Salah".toList)
        ⟨"Mohammed Salah".toList, some ["Mo Salah".toList], none⟩).isCorrect = true ∧
      (FuzzyMatcher.matchCelebrityName (fun _ _ => []) (some "Mo Salah".toList)
        ⟨"Mohammed Salah".toList, some ["Mo Salah".toList], none⟩).score = 100) :=
  ⟨basic_alias_is_accepted (fun _ _ => []) ⟨"Omar Sharif".toList,
      some ["Omar El-Sharif".toList, "Michel Demitri Shalhoub".toList], none⟩
      "Omar El-Sharif".toList (by decide),
    basic_alias_is_accepted (fun _ _ => []) ⟨"Mohammed Salah".toList,
      some ["Mo Salah".toList], none⟩ "Mo Salah".toList (by decide)⟩

/-- C16 fails on the code: the basic `normalizeArabicName('Al-Omar')` is
'al umar', not 'al omar'.  The variant loop replaces 'omar' by 'umar' (the
basic table has no entry back) before the prefix 'al-' is rewritten, so the
remainder of the name is not kept. -/
theorem basic_normalize_al_omar :
    FuzzyMatcher.normalizeArabicName (some "Al-Omar".toList) = "al umar".toList ∧
    FuzzyMatcher.normalizeArabicName (some "Al-Omar".toList) ≠ "al omar".toList := by
  decide

/-- C17 fails on the code: the basic `normalizeArabicName('Abdullah')` is
'abd ullah', not 'abdullah'.  The prefix loop finds that the name starts with
'abd' and splits it off. -/
theorem basic_normalize_abdullah :
    FuzzyMatcher.normalizeArabicName (some "Abdullah".toList) = "abd ullah".toList ∧
    FuzzyMatcher.normalizeArabicName (some "Abdullah".toList) ≠ "abdullah".toList := by
  decide

/-! ## `WikipediaService.generateNameVariations` -/

/-- C18 fails on the code: for 'Mohammed Ahmed' the result is
'muhammad ahmed', 'mohammed ahmad' and 'al Mohammed Ahmed'; each entry has one
variant replaced in the lower-cased name, and 'muhammad ahmad', with both
replaced, is not in the list. -/
theorem variations_replace_one_variant :
    WikipediaService.generateNameVariations "Mohammed Ahmed".toList
      = ["muhammad ahmed".toList, "mohammed ahmad".toList, "al Mohammed Ahmed".toList] ∧
    "muhammad ahmad".toList ∉ WikipediaService.generateNameVariations "Mohammed Ahmed".toList := by
  decide

/-- C19 fails on the code: for 'Mohammed Ahmed' the entry with the prefix is
'al Mohammed Ahmed', the name as given and not lower-cased, and
'al mohammed ahmed' is not in the list. -/
theorem variations_prefix_keeps_case :
    "al Mohammed Ahmed".toList ∈ WikipediaService.generateNameVariations "Mohammed Ahmed".toList ∧
    "al mohammed ahmed".toList ∉ WikipediaService.generateNameVariations "Mohammed Ahmed".toList := by
  decide

/-! ## Labels and suggestions -/

open EnhancedFuzzyMatcher in
/-- A verdict returned from inside the alias loop is the rejection or an
acceptance with the alias as label. -/
theorem EnhancedFuzzyMatcher.matchAliases_verdict (normalizedInput celebrityName : List Char)
    (aliases : List (List Char)) (v : MatchResult)
    (h : matchAliases normalizedInput celebrityName aliases = some v) :
    v = noMatch ∨ ∃ a, v = ⟨true, 100, some a⟩ := by
  induction aliases with
  | nil => simp [matchAliases] at h
  | cons b rest ih =>
    simp only [matchAliases] at h
    split at h
    · split at h
      · split at h
        · exact Or.inr ⟨b, (Option.some.inj h).symm⟩
        · exact Or.inl (Option.some.inj h).symm
      · exact Or.inr ⟨b, (Option.some.inj h).symm⟩
    · exact ih h

/-- A truthy optional string is present. -/
theorem ne_none_of_truthy (s : Option (List Char)) (h : truthy s = true) : s ≠ none := by
  cases s with
  | none => simp [truthy] at h
  | some _ => simp

open EnhancedFuzzyMatcher in
/-- The only verdict of `matchCelebrityName` without label is the rejection
with score 0. -/
theorem EnhancedFuzzyMatcher.noMatch_or_label (fuse : FuseSearch)
    (userInput : Option (List Char)) (c : CelebrityData) :
    matchCelebrityName fuse userInput c = noMatch ∨
    (matchCelebrityName fuse userInput c).matchedName ≠ none := by
  unfold matchCelebrityName
  simp only []
  split
  · exact Or.inr (by simp)
  · split
    · next v hv =>
      rcases matchAliases_verdict _ _ _ v hv with h | ⟨a, h⟩
      · exact Or.inl h
      · exact Or.inr (by simp [h])
    · split
      · next har => exact Or.inr (ne_none_of_truthy _ har.1)
      · split
        · exact Or.inl rfl
        · split
          · split
            · exact Or.inr (by simp)
            · exact Or.inl rfl
          · unfold fuseVerdict
            split
            · exact Or.inr (by simp)
            · split
              · exact Or.inr (by simp)
              · exact Or.inl rfl

open EnhancedFuzzyMatcher in
/-- C11, as stated, fails: for the input 'Sharif', the record 'Omar Sharif'
with two aliases and the threshold 0, the verdict is incorrect with score 0
and no label, and the suggestions start with the null label. -/
theorem suggestions_null_counterexample :
    (matchCelebrityName (fun _ _ => []) (some "Sharif".toList)
      ⟨"Omar Sharif".toList,
        some ["Omar El-Sharif".toList, "Michel Demitri Shalhoub".toList], none⟩)
      = ⟨false, 0, none⟩ ∧
    (matchWithSuggestions (fun _ _ => []) (some "Sharif".toList)
      ⟨"Omar Sharif".toList,
        some ["Omar El-Sharif".toList, "Michel Demitri Shalhoub".toList], none⟩ 0).suggestions
      = [none, some "Omar El-Sharif".toList, some "Michel Demitri Shalhoub".toList] := by
  decide

open EnhancedFuzzyMatcher in
/-- C11, amended. Whenever the verdict is incorrect and
`score >= suggestionThreshold`, the suggestions are exactly the `matchedName`
of the verdict, followed by the first two aliases in list order, followed by
the Arabic name if it is present and not empty; the list has at most 4
entries; and for a positive threshold the first entry is a label, so that the
list holds no null. -/
theorem suggestions_content (fuse : FuseSearch) (userInput : Option (List Char))
    (c : CelebrityData) (suggestionThreshold : Int)
    (hinc : (matchCelebrityName fuse userInput c).isCorrect = false)
    (hge : suggestionThreshold ≤ (matchCelebrityName fuse userInput c).score) :
    (matchWithSuggestions fuse userInput c suggestionThreshold).suggestions
      = [(matchCelebrityName fuse userInput c).matchedName] ++
        ((aliasesOrEmpty c).take 2).map some ++
        (if truthy c.arabic_name = true then [c.arabic_name] else []) ∧
    (matchWithSuggestions fuse userInput c suggestionThreshold).suggestions.length ≤ 4 ∧
    (0 < suggestionThreshold →
      none ∉ (matchWithSuggestions fuse userInput c suggestionThreshold).suggestions) := by
  have hlist : (matchWithSuggestions fuse userInput c suggestionThreshold).suggestions
      = [(matchCelebrityName fuse userInput c).matchedName] ++
        ((aliasesOrEmpty c).take 2).map some ++
        (if truthy c.arabic_name = true then [c.arabic_name] else []) := by
    cases hal : c.aliases <;> simp [matchWithSuggestions, hinc, hge, aliasesOrEmpty, hal]
  refine ⟨hlist, ?_, ?_⟩
  · rw [hlist]
    split <;> simp
  · intro hpos hmem
    rw [hlist] at hmem
    have hlabel : (matchCelebrityName fuse userInput c).matchedName ≠ none := by
      rcases noMatch_or_label fuse userInput c with h | h
      · rw [h] at hge
        simp only [noMatch] at hge
        omega
      · exact h
    rcases List.mem_append.mp hmem with hm | hm
    · rcases List.mem_append.mp hm with hm | hm
      · exact hlabel (List.mem_singleton.mp hm).symm
      · obtain ⟨a, _, ha⟩ := List.mem_map.mp hm
        cases ha
    · split at hm
      · next htr => exact ne_none_of_truthy _ htr (List.mem_singleton.mp hm).symm
      · cases hm

open EnhancedFuzzyMatcher in
/-- C11, amended, at the input 'Sharif' for the record 'Omar Sharif' with two
aliases and the threshold 0. -/
theorem suggestions_content_witness :
    (matchWithSuggestions (fun _ _ => []) (some "Sharif".toList)
      ⟨"Omar Sharif".toList,
        some ["Omar El-Sharif".toList, "Michel Demitri Shalhoub".toList], none⟩
      0).suggestions.length ≤ 4 :=
  (suggestions_content (fun _ _ => []) (some "Sharif".toList)
    ⟨"Omar Sharif".toList,
      some ["Omar El-Sharif".toList, "Michel Demitri Shalhoub".toList], none⟩ 0
    (by decide) (by decide)).2.1

/-! ## The approximate search and the word overlap -/

open EnhancedFuzzyMatcher in
/-- An input that passes the exact comparisons and the length guard and has
several words is decided by the approximate search, and by the word overlap
only if the search has no result. -/
theorem EnhancedFuzzyMatcher.matchCelebrityName_at_search (fuse : FuseSearch)
    (userInput : Option (List Char)) (c : CelebrityData)
    (hname : normalizeArabicName userInput ≠ normalizeArabicName (some c.name))
    (halias : ∀ a ∈ aliasesOrEmpty c, normalizeArabicName userInput ≠ normalizeArabicName (some a))
    (harabic : truthy c.arabic_name = true →
      normalizeArabicName userInput ≠ normalizeArabicName c.arabic_name)
    (hlen : 3 ≤ jsLength (normalizeArabicName userInput))
    (hmulti : 1 < (words (normalizeArabicName userInput)).length) :
    matchCelebrityName fuse userInput c =
      fuseVerdict 70 (fuse (allVariations c) (normalizeArabicName userInput))
        (match wordOverlapMatch (words (normalizeArabicName userInput)) (allVariations c) with
          | some variation => ⟨true, 85, some variation⟩
          | none => noMatch) := by
  have hloop := matchAliases_eq_none (normalizeArabicName userInput) c.name
    (aliasesOrEmpty c) halias
  have har : ¬ (truthy c.arabic_name = true ∧
      normalizeArabicName userInput = normalizeArabicName c.arabic_name) :=
    fun h => harabic h.1 h.2
  have hl : ¬ jsLength (normalizeArabicName userInput) < 3 := Nat.not_lt.mpr hlen
  simp only [matchCelebrityName, hname, hloop, har, hl, if_false]
  split
  · next w hw => rw [hw] at hmulti; exact absurd hmulti (Nat.lt_irrefl 1)
  · rfl

/-- The score of a result with Fuse score 7/20. -/
theorem mathRound_sixty_five : mathRound ((1 - 7 / 20) * 100) = 65 := by
  unfold mathRound
  rw [Int.floor_eq_iff]
  norm_num

open EnhancedFuzzyMatcher in
/-- C12, as stated, fails: for the input 'Omar Sharif Egypt' and the record
'Omar Sharif', the input shares two of its three tokens with the name, so the
word overlap would accept it; with a search whose best result is the name
with Fuse score 7/20, hence 65 points, the verdict is incorrect with score 65
and the word overlap is not consulted. -/
theorem no_fall_through_counterexample :
    wordOverlapMatch (words (normalizeArabicName (some "Omar Sharif Egypt".toList)))
      (allVariations ⟨"Omar Sharif".toList, none, none⟩) = some "Omar Sharif".toList ∧
    matchCelebrityName (fun _ _ => [⟨"Omar Sharif".toList, 7 / 20⟩])
      (some "Omar Sharif Egypt".toList) ⟨"Omar Sharif".toList, none, none⟩
      = ⟨false, 65, some "Omar Sharif".toList⟩ := by
  refine ⟨by decide, ?_⟩
  rw [matchCelebrityName_at_search _ _ _ (by decide) (by decide) (by decide) (by decide)
    (by decide)]
  simp only [fuseVerdict, mathRound_sixty_five]
  rfl

open EnhancedFuzzyMatcher in
/-- C12, amended. For an input of several tokens that reaches the approximate
search: when the search has a result, the verdict is that of its best result,
correct exactly when the score is at least 70, with that score and that
candidate as label, whatever the word overlap is; when the search has no
result, the first candidate that passes the word-overlap test gives correct
with score 85, and with no such candidate the verdict is incorrect with score
0 and no label. -/
theorem search_result_decides (fuse : FuseSearch)
    (userInput : Option (List Char)) (c : CelebrityData)
    (hname : normalizeArabicName userInput ≠ normalizeArabicName (some c.name))
    (halias : ∀ a ∈ aliasesOrEmpty c, normalizeArabicName userInput ≠ normalizeArabicName (some a))
    (harabic : truthy c.arabic_name = true →
      normalizeArabicName userInput ≠ normalizeArabicName c.arabic_name)
    (hlen : 3 ≤ jsLength (normalizeArabicName userInput))
    (hmulti : 1 < (words (normalizeArabicName userInput)).length) :
    (∀ bestMatch rest,
      fuse (allVariations c) (normalizeArabicName userInput) = bestMatch :: rest →
      matchCelebrityName fuse userInput c =
        ⟨decide (mathRound ((1 - bestMatch.score) * 100) ≥ 70),
          mathRound ((1 - bestMatch.score) * 100), some bestMatch.item⟩) ∧
    (fuse (allVariations c) (normalizeArabicName userInput) = [] →
      ∀ variation,
        wordOverlapMatch (words (normalizeArabicName userInput)) (allVariations c)
          = some variation →
        matchCelebrityName fuse userInput c = ⟨true, 85, some variation⟩) ∧
    (fuse (allVariations c) (normalizeArabicName userInput) = [] →
      wordOverlapMatch (words (normalizeArabicName userInput)) (allVariations c) = none →
      matchCelebrityName fuse userInput c = ⟨false, 0, none⟩) := by
  have h := matchCelebrityName_at_search fuse userInput c hname halias harabic hlen hmulti
  refine ⟨fun b rest hb => ?_, fun hnil v hv => ?_, fun hnil hv => ?_⟩
  · rw [h, hb]; rfl
  · rw [h, hnil, hv]; rfl
  · rw [h, hnil, hv]; rfl

open EnhancedFuzzyMatcher in
/-- C12, amended, at the input 'Omar Sharif Egypt' for the record
'Omar Sharif' with a search that has no result: the word overlap accepts the
input with score 85. -/
theorem search_result_decides_witness :
    matchCelebrityName (fun _ _ => []) (some "Omar Sharif Egypt".toList)
      ⟨"Omar Sharif".toList, none, none⟩ = ⟨true, 85, some "Omar Sharif".toList⟩ :=
  (search_result_decides (fun _ _ => []) (some "Omar Sharif Egypt".toList)
    ⟨"Omar Sharif".toList, none, none⟩ (by decide) (by decide) (by decide) (by decide)
    (by decide)).2.1 rfl "Omar Sharif".toList (by decide)

/-! ## Empty input -/

open EnhancedFuzzyMatcher in
/-- C13, as stated, fails: for the record named 'Fairuz' whose alias list
holds the empty string, the empty input and the absent input are both correct
with score 100 and the empty alias as label. -/
theorem empty_input_counterexample :
    matchCelebrityName (fun _ _ => []) (some []) ⟨"Fairuz".toList, some [[]], none⟩
      = ⟨true, 100, some []⟩ ∧
    matchCelebrityName (fun _ _ => []) none ⟨"Fairuz".toList, some [[]], none⟩
      = ⟨true, 100, some []⟩ := by
  decide

open EnhancedFuzzyMatcher in
/-- C13, amended. For every record whose canonical name has a normalized form
that is not empty, and whose aliases and Arabic name (when it has one) all
have normalized forms that are not empty, `matchCelebrityName` called with an
empty or an absent input returns incorrect, score 0 and no label. -/
theorem empty_input_rejected (fuse : FuseSearch) (c : CelebrityData)
    (hname : normalizeArabicName (some c.name) ≠ [])
    (halias : ∀ a ∈ aliasesOrEmpty c, normalizeArabicName (some a) ≠ [])
    (harabic : truthy c.arabic_name = true → normalizeArabicName c.arabic_name ≠ []) :
    matchCelebrityName fuse (some []) c = ⟨false, 0, none⟩ ∧
    matchCelebrityName fuse none c = ⟨false, 0, none⟩ := by
  have hloop := matchAliases_eq_none [] c.name (aliasesOrEmpty c)
    (fun a ha h => halias a ha h.symm)
  have har : ¬ (truthy c.arabic_name = true ∧ [] = normalizeArabicName c.arabic_name) :=
    fun h => harabic h.1 h.2.symm
  have hn : ¬ ([] = normalizeArabicName (some c.name)) := fun h => hname h.symm
  have hempty : normalizeArabicName (some []) = [] := rfl
  have habsent : normalizeArabicName none = [] := rfl
  have hlen : jsLength ([] : List Char) < 3 := by decide
  constructor
  · simp only [matchCelebrityName, hempty, hn, hloop, har, hlen, if_false, if_true]
    rfl
  · simp only [matchCelebrityName, habsent, hn, hloop, har, hlen, if_false, if_true]
    rfl

open EnhancedFuzzyMatcher in
/-- C13, amended, at the record 'Omar Sharif' with the alias 'Omar El-Sharif'. -/
theorem empty_input_rejected_witness :
    matchCelebrityName (fun _ _ => []) (some [])
      ⟨"Omar Sharif".toList, some ["Omar El-Sharif".toList], none⟩ = ⟨false, 0, none⟩ ∧
    matchCelebrityName (fun _ _ => []) none
      ⟨"Omar Sharif".toList, some ["Omar El-Sharif".toList], none⟩ = ⟨false, 0, none⟩ :=
  empty_input_rejected (fun _ _ => [])
    ⟨"Omar Sharif".toList, some ["Omar El-Sharif".toList], none⟩
    (by decide) (by decide) (by decide)

/-! ## A one-character typo -/

open EnhancedFuzzyMatcher in
/-- The input 'Mohamed Slah' for the record 'Mohamed Salah' is handed to the
approximate search, which decides; only a search without result leaves the
verdict to the word overlap, which accepts with score 85. -/
theorem typo_is_left_to_the_search (fuse : FuseSearch) :
    matchCelebrityName fuse (some "Mohamed Slah".toList) ⟨"Mohamed Salah".toList, none, none⟩
      = fuseVerdict 70
          (fuse ["Mohamed Salah".toList, "muhammad salah".toList] "muhammad slah".toList)
          ⟨true, 85, some "Mohamed Salah".toList⟩ := by
  rw [matchCelebrityName_at_search fuse _ _ (by decide) (by decide) (by decide) (by decide)
    (by decide)]
  have h1 : normalizeArabicName (some "Mohamed Slah".toList) = "muhammad slah".toList := by
    decide
  have h2 : allVariations ⟨"Mohamed Salah".toList, none, none⟩
      = ["Mohamed Salah".toList, "muhammad salah".toList] := by decide
  have h3 : wordOverlapMatch (words "muhammad slah".toList)
      ["Mohamed Salah".toList, "muhammad salah".toList] = some "Mohamed Salah".toList := by
    decide
  rw [h1, h2, h3]

open EnhancedFuzzyMatcher in
/-- The input 'MohamedSalah', the name 'Mohamed Salah' without its space, is
one token and is rejected with score 0 before any approximate search. -/
theorem typo_dropping_the_space_is_rejected (fuse : FuseSearch) :
    matchCelebrityName fuse (some "MohamedSalah".toList) ⟨"Mohamed Salah".toList, none, none⟩
      = ⟨false, 0, none⟩ := by
  rfl

/-! ## `WikipediaService.cleanDescription` -/

/-- `contains` as membership. -/
theorem contains_false_iff (l : List Char) (c : Char) : l.contains c = false ↔ c ∉ l := by
  simp

/-- A string without tag has no `>` after any of its `<`. -/
theorem not_mem_of_hasTag_false (s : List Char) (h : hasTag s = false) (a b : List Char)
    (hs : s = a ++ '<' :: b) : '>' ∉ b := by
  induction a generalizing s with
  | nil =>
    subst hs
    simp only [List.nil_append, hasTag, Bool.or_eq_false_iff, Bool.and_eq_false_iff,
      contains_false_iff] at h
    rcases h.1 with h1 | h1
    · simp at h1
    · exact h1
  | cons x a ih =>
    subst hs
    simp only [List.cons_append, hasTag, Bool.or_eq_false_iff] at h
    exact ih _ h.2 rfl

/-- The end of a string without tag has no tag. -/
theorem hasTag_of_append_right (s t : List Char) (h : hasTag (s ++ t) = false) :
    hasTag t = false := by
  induction s with
  | nil => exact h
  | cons c s ih =>
    simp only [List.cons_append, hasTag, Bool.or_eq_false_iff] at h
    exact ih h.2

/-- The start of a string without tag has no tag. -/
theorem hasTag_of_append_left (s t : List Char) (h : hasTag (s ++ t) = false) :
    hasTag s = false := by
  induction s with
  | nil => rfl
  | cons c s ih =>
    simp only [List.cons_append, hasTag, Bool.or_eq_false_iff, Bool.and_eq_false_iff,
      contains_false_iff] at h ⊢
    refine ⟨?_, ih h.2⟩
    rcases h.1 with h1 | h1
    · exact Or.inl h1
    · exact Or.inr (fun hx => h1 (List.mem_append_left t hx))

/-- Text without `>` and without tag, put after a string without tag, gives a
string without tag. -/
theorem hasTag_append (s t : List Char) (hs : hasTag s = false) (ht : hasTag t = false)
    (hgt : '>' ∉ t) : hasTag (s ++ t) = false := by
  induction s with
  | nil => exact ht
  | cons c s ih =>
    simp only [List.cons_append, hasTag, Bool.or_eq_false_iff, Bool.and_eq_false_iff,
      contains_false_iff] at hs ⊢
    refine ⟨?_, ih hs.2⟩
    rcases hs.1 with h1 | h1
    · exact Or.inl h1
    · right
      intro hx
      rcases List.mem_append.mp hx with hx | hx
      · exact h1 hx
      · exact hgt hx

/-- A character left by the removal of tags is a character of the string. -/
theorem mem_removeTagsAux (inTag : Bool) (s : List Char) (c : Char)
    (h : c ∈ removeTagsAux inTag s) : c ∈ s := by
  induction s generalizing inTag with
  | nil => simp [removeTagsAux] at h
  | cons a s ih =>
    cases inTag with
    | true =>
      simp only [removeTagsAux] at h
      split at h <;> exact List.mem_cons_of_mem a (ih _ h)
    | false =>
      simp only [removeTagsAux] at h
      split at h
      · exact List.mem_cons_of_mem a (ih _ h)
      · rcases List.mem_cons.mp h with h | h
        · exact h ▸ List.mem_cons_self a s
        · exact List.mem_cons_of_mem a (ih _ h)

/-- The removal of tags leaves no tag. -/
theorem hasTag_removeTagsAux (inTag : Bool) (s : List Char) :
    hasTag (removeTagsAux inTag s) = false := by
  induction s generalizing inTag with
  | nil => cases inTag <;> rfl
  | cons a s ih =>
    cases inTag with
    | true =>
      simp only [removeTagsAux]
      split <;> exact ih _
    | false =>
      simp only [removeTagsAux]
      split
      · exact ih _
      · next hno =>
        simp only [hasTag, Bool.or_eq_false_iff, Bool.and_eq_false_iff, contains_false_iff]
        refine ⟨?_, ih _⟩
        by_cases ha : a = '<'
        · exact Or.inr (fun hx => hno ⟨ha, mem_removeTagsAux false s _ hx⟩)
        · left; simpa using ha

/-- The collapse of white space brings no tag into a string without tag. -/
theorem hasTag_collapseAux (b : Bool) (s : List Char) (h : hasTag s = false) :
    hasTag (collapseAux b s) = false := by
  induction s generalizing b with
  | nil => rfl
  | cons a s ih =>
    simp only [hasTag, Bool.or_eq_false_iff, Bool.and_eq_false_iff, contains_false_iff] at h
    simp only [collapseAux]
    split
    · split
      · exact ih _ h.2
      · simp only [hasTag, Bool.or_eq_false_iff, Bool.and_eq_false_iff]
        exact ⟨Or.inl (by decide), ih _ h.2⟩
    · simp only [hasTag, Bool.or_eq_false_iff, Bool.and_eq_false_iff, contains_false_iff]
      refine ⟨?_, ih _ h.2⟩
      rcases h.1 with h1 | h1
      · exact Or.inl h1
      · right
        intro hx
        rcases mem_collapseAux _ _ _ hx with hx | hx
        · exact h1 hx
        · exact absurd hx (by decide)

/-- Trimming brings no tag into a string without tag. -/
theorem hasTag_trim (s : List Char) (h : hasTag s = false) : hasTag (trim s) = false := by
  rw [trim_eq]
  obtain ⟨t, ht⟩ := List.rdropWhile_prefix isWhiteSpace (List.dropWhile isWhiteSpace s)
  obtain ⟨u, hu⟩ := List.dropWhile_suffix (l := s) isWhiteSpace
  apply hasTag_of_append_left _ t
  rw [ht]
  apply hasTag_of_append_right u
  rw [hu]
  exact h

/-- What `substringTo` keeps is a start of the string. -/
theorem substringTo_prefix (n : Nat) (s : List Char) : ∃ t, substringTo n s ++ t = s := by
  induction s generalizing n with
  | nil => exact ⟨[], rfl⟩
  | cons c s ih =>
    by_cases hfit : (if c.toNat < 0x10000 then 1 else 2) ≤ n
    · obtain ⟨t, ht⟩ := ih (n - (if c.toNat < 0x10000 then 1 else 2))
      exact ⟨t, by rw [substringTo, if_pos hfit, List.cons_append, ht]⟩
    · exact ⟨c :: s, by rw [substringTo, if_neg hfit, List.nil_append]⟩

/-- C20. For every description, absent ones included, the output of
`cleanDescription` holds no `<` that is followed anywhere later by a `>`; an
absent or empty description gives the empty string; and the description of
the test, with its three tags, is cleaned to its text. -/
theorem cleanDescription_removes_tags (description : Option (List Char)) :
    (∀ a b, WikipediaService.cleanDescription description = a ++ '<' :: b → '>' ∉ b) ∧
    WikipediaService.cleanDescription none = [] ∧
    WikipediaService.cleanDescription (some []) = [] ∧
    WikipediaService.cleanDescription
      (some "<p>This is a <b>test</b> description with HTML tags.</p>".toList)
      = "This is a test description with HTML tags.".toList := by
  refine ⟨?_, rfl, rfl, by decide⟩
  have key : hasTag (WikipediaService.cleanDescription description) = false := by
    cases description with
    | none => rfl
    | some d =>
      simp only [WikipediaService.cleanDescription]
      have h1 : hasTag (trim (collapseSpaces (removeTags d))) = false :=
        hasTag_trim _ (hasTag_collapseAux false _ (hasTag_removeTagsAux false d))
      split
      · rfl
      · split
        · obtain ⟨t, ht⟩ := substringTo_prefix 297 (trim (collapseSpaces (removeTags d)))
          apply hasTag_append
          · exact hasTag_of_append_left _ t (by rw [ht]; exact h1)
          · decide
          · decide
        · exact h1
  exact fun a b hab => not_mem_of_hasTag_false _ key a b hab

/-! ## The verdict and the score -/

open EnhancedFuzzyMatcher in
/-- The four shapes of a verdict of `matchCelebrityName`: an exact acceptance
with score 100, the rejection with score 0, the verdict of the best result of
the approximate search, and the acceptance by word overlap with score 85. -/
theorem EnhancedFuzzyMatcher.verdict_shapes (fuse : FuseSearch)
    (userInput : Option (List Char)) (c : CelebrityData) :
    (∃ label, matchCelebrityName fuse userInput c = ⟨true, 100, label⟩) ∨
    matchCelebrityName fuse userInput c = noMatch ∨
    (∃ bestMatch : FuseResult, matchCelebrityName fuse userInput c =
      ⟨decide (mathRound ((1 - bestMatch.score) * 100) ≥ 70),
        mathRound ((1 - bestMatch.score) * 100), some bestMatch.item⟩) ∨
    (∃ label, matchCelebrityName fuse userInput c = ⟨true, 85, label⟩) := by
  unfold matchCelebrityName
  simp only []
  split
  · exact Or.inl ⟨_, rfl⟩
  · split
    · next v hv =>
      rcases matchAliases_verdict _ _ _ v hv with h | ⟨a, h⟩
      · exact Or.inr (Or.inl h)
      · exact Or.inl ⟨_, h⟩
    · split
      · exact Or.inl ⟨_, rfl⟩
      · split
        · exact Or.inr (Or.inl rfl)
        · split
          · split
            · exact Or.inl ⟨_, rfl⟩
            · exact Or.inr (Or.inl rfl)
          · unfold fuseVerdict
            split
            · next b _ _ => exact Or.inr (Or.inr (Or.inl ⟨b, rfl⟩))
            · split
              · exact Or.inr (Or.inr (Or.inr ⟨_, rfl⟩))
              · exact Or.inr (Or.inl rfl)

open EnhancedFuzzyMatcher in
/-- C26. For every input, record and approximate search, the result of
`matchCelebrityName` is correct if and only if its score is at least 70; a
correct result has score 100, 85 or an approximate score of at least 70, and
an incorrect result has a score below 70. -/
theorem verdict_agrees_with_score (fuse : FuseSearch) (userInput : Option (List Char))
    (c : CelebrityData) :
    ((matchCelebrityName fuse userInput c).isCorrect = true ↔
      70 ≤ (matchCelebrityName fuse userInput c).score) ∧
    ((matchCelebrityName fuse userInput c).isCorrect = true →
      (matchCelebrityName fuse userInput c).score = 100 ∨
      (matchCelebrityName fuse userInput c).score = 85 ∨
      ∃ bestMatch : FuseResult,
        (matchCelebrityName fuse userInput c).score = mathRound ((1 - bestMatch.score) * 100) ∧
        70 ≤ mathRound ((1 - bestMatch.score) * 100)) ∧
    ((matchCelebrityName fuse userInput c).isCorrect = false →
      (matchCelebrityName fuse userInput c).score < 70) := by
  rcases verdict_shapes fuse userInput c with ⟨l, h⟩ | h | ⟨b, h⟩ | ⟨l, h⟩
  · rw [h]; simp
  · rw [h]; simp [noMatch]
  · rw [h]
    refine ⟨by simp, fun hc => Or.inr (Or.inr ⟨b, rfl, by simpa using hc⟩), fun hc => ?_⟩
    simpa using hc
  · rw [h]; simp

open EnhancedFuzzyMatcher in
/-- C29. For every non-zero threshold `t`, `isCorrectAnswer` is true exactly
when the match score is at least `t`; for every `t >= 70`, and for an omitted
threshold with the default `this.threshold` of 80, a true `isCorrectAnswer`
implies that `matchCelebrityName` on the same input and record is correct. -/
theorem isCorrectAnswer_consistent (fuse : FuseSearch) (userInput : Option (List Char))
    (c : CelebrityData) (thisThreshold t : Int) :
    (t ≠ 0 → (isCorrectAnswer fuse thisThreshold userInput c (some t) = true ↔
      t ≤ (matchCelebrityName fuse userInput c).score)) ∧
    (70 ≤ t → isCorrectAnswer fuse thisThreshold userInput c (some t) = true →
      (matchCelebrityName fuse userInput c).isCorrect = true) ∧
    (isCorrectAnswer fuse 80 userInput c none = true →
      (matchCelebrityName fuse userInput c).isCorrect = true) := by
  have hbar : ∀ s : Int, 70 ≤ s → s ≤ (matchCelebrityName fuse userInput c).score →
      (matchCelebrityName fuse userInput c).isCorrect = true := by
    intro s hs hle
    rcases verdict_shapes fuse userInput c with ⟨l, h⟩ | h | ⟨b, h⟩ | ⟨l, h⟩
    · rw [h]
    · rw [h] at hle; simp only [noMatch] at hle; omega
    · rw [h] at hle ⊢
      simp only [ge_iff_le, decide_eq_true_eq] at hle ⊢
      omega
    · rw [h]
  refine ⟨fun ht => ?_, fun ht h => ?_, fun h => ?_⟩
  · simp [isCorrectAnswer, ht]
  · have ht0 : t ≠ 0 := by omega
    simp only [isCorrectAnswer, ht0, ne_eq, not_false_eq_true, if_true, ge_iff_le,
      decide_eq_true_eq] at h
    exact hbar t ht h
  · simp only [isCorrectAnswer, ge_iff_le, decide_eq_true_eq] at h
    exact hbar 80 (by decide) h

/-! ## The canonical form of a normalized name -/

/-- A trimmed string does not start with white space. -/
theorem head_trim (s : List Char) (c : Char) (h : (trim s).head? = some c) :
    isWhiteSpace c = false := by
  rw [trim_eq] at h
  rcases dropWhile_nil_or_cons isWhiteSpace s with h0 | ⟨a, t, h0, ha⟩
  · rw [h0] at h; simp [List.rdropWhile] at h
  · rw [h0, rdropWhile_cons_of_neg isWhiteSpace a t ha] at h
    simp only [List.head?_cons, Option.some.injEq] at h
    rw [← h]; exact ha

/-- A trimmed string does not end with white space. -/
theorem getLast_trim (s : List Char) (c : Char) (h : (trim s).getLast? = some c) :
    isWhiteSpace c = false := by
  rw [trim_eq] at h
  have hne : List.rdropWhile isWhiteSpace (List.dropWhile isWhiteSpace s) ≠ [] := by
    intro h0; rw [h0] at h; simp at h
  have hlast := List.rdropWhile_last_not isWhiteSpace (List.dropWhile isWhiteSpace s) hne
  rw [List.getLast?_eq_getLast _ hne, Option.some.injEq] at h
  rw [← h]
  simpa using hlast

/-- In a collapsed string every white-space character is a space. -/
theorem space_of_isCollapsed (b : Bool) (s : List Char) (h : isCollapsed b s = true)
    (c : Char) (hc : c ∈ s) (hw : isWhiteSpace c = true) : c = ' ' := by
  induction s generalizing b with
  | nil => cases hc
  | cons d s ih =>
    simp only [isCollapsed] at h
    by_cases hd : isWhiteSpace d = true
    · simp only [hd, if_true, Bool.and_eq_true, beq_iff_eq] at h
      rcases List.mem_cons.mp hc with hcd | hcs
      · rw [hcd]; exact h.1.1
      · exact ih true h.2 hcs
    · simp only [hd] at h
      rcases List.mem_cons.mp hc with hcd | hcs
      · rw [hcd] at hw; exact absurd hw hd
      · exact ih false h hcs

/-- A collapsed string has no two spaces in a row. -/
theorem no_double_space_of_isCollapsed (b : Bool) (s : List Char)
    (h : isCollapsed b s = true) (l r : List Char) : s ≠ l ++ ' ' :: ' ' :: r := by
  have hsp : isWhiteSpace ' ' = true := by decide
  induction l generalizing b s with
  | nil =>
    intro hs
    rw [hs] at h
    simp [isCollapsed, hsp] at h
  | cons d l ih =>
    intro hs
    rw [hs] at h
    simp only [List.cons_append, isCollapsed] at h
    by_cases hd : isWhiteSpace d = true
    · simp only [hd, if_true, Bool.and_eq_true] at h
      exact ih true _ h.2 rfl
    · simp only [hd] at h
      exact ih false _ h rfl

open EnhancedFuzzyMatcher in
/-- C24. For every input, absent ones included, the output of
`normalizeArabicName` neither starts nor ends with white space, holds no
white-space character other than the space, never has two spaces in a row,
and holds no upper-case ASCII letter. -/
theorem normalized_form_is_canonical (name : Option (List Char)) :
    (∀ c, (normalizeArabicName name).head? = some c → isWhiteSpace c = false) ∧
    (∀ c, (normalizeArabicName name).getLast? = some c → isWhiteSpace c = false) ∧
    (∀ c ∈ normalizeArabicName name, isWhiteSpace c = true → c = ' ') ∧
    (∀ l r, normalizeArabicName name ≠ l ++ ' ' :: ' ' :: r) ∧
    (∀ c ∈ normalizeArabicName name, ¬ (0x41 ≤ c.toNat ∧ c.toNat ≤ 0x5A)) := by
  have hsteps : ∀ x : List Char,
      (∀ c, (normalizeSteps x).head? = some c → isWhiteSpace c = false) ∧
      (∀ c, (normalizeSteps x).getLast? = some c → isWhiteSpace c = false) ∧
      (∀ c ∈ normalizeSteps x, isWhiteSpace c = true → c = ' ') ∧
      (∀ l r, normalizeSteps x ≠ l ++ ' ' :: ' ' :: r) ∧
      (∀ c ∈ normalizeSteps x, ¬ (0x41 ≤ c.toNat ∧ c.toNat ≤ 0x5A)) := by
    intro x
    have hcol : isCollapsed false (normalizeSteps x) = true := by
      simp only [normalizeSteps]
      exact isCollapsed_trim _ (isCollapsed_collapseAux false _)
    refine ⟨fun c hc => ?_, fun c hc => ?_, fun c hc hw => ?_, fun l r => ?_, fun c hc => ?_⟩
    · simp only [normalizeSteps] at hc; exact head_trim _ c hc
    · simp only [normalizeSteps] at hc; exact getLast_trim _ c hc
    · exact space_of_isCollapsed false _ hcol c hc hw
    · exact no_double_space_of_isCollapsed false _ hcol l r
    · have hs := settled_normalizeSteps x c hc
      simp only [isSettled, Bool.and_eq_true, Bool.not_eq_true', Bool.and_eq_false_iff,
        decide_eq_false_iff_not] at hs
      omega
  cases name with
  | none => simp [normalizeArabicName]
  | some x =>
    by_cases hx : x.isEmpty = true
    · simp [normalizeArabicName, hx]
    · simp only [normalizeArabicName, hx]
      exact hsteps x

/-! ## Whole-word replacement inside a word -/

/-- After a word character, inside a run of word characters, `\b` holds
nowhere and the whole-word replacement changes nothing. -/
theorem replaceWordAux_inside (pat rep : List Char) (p : Char) (s : List Char)
    (hp : isWordChar p = true) (hs : ∀ c ∈ s, isWordChar c = true) :
    replaceWordAux pat rep (some p) 0 s = s := by
  induction s generalizing p with
  | nil => rfl
  | cons c cs ih =>
    have hc := hs c (List.mem_cons_self c cs)
    have hno : matchesWordAt pat (some p) (c :: cs) = false := by
      simp [matchesWordAt, wordBoundary, hp, hc]
    rw [replaceWordAux, if_neg (by simp [hno]),
      ih c hc (fun d hd => hs d (List.mem_cons_of_mem c hd))]

/-- A whole-word replacement leaves a run of word characters alone unless the
pattern is the whole run. -/
theorem replaceWord_of_ne (pat rep w : List Char) (hw : ∀ c ∈ w, isWordChar c = true)
    (hne : pat ≠ w) (hpat : pat ≠ []) : replaceWord pat rep w = w := by
  cases w with
  | nil => rfl
  | cons c cs =>
    have hc := hw c (List.mem_cons_self c cs)
    have hno : matchesWordAt pat none (c :: cs) = false := by
      by_cases hpre : pat.isPrefixOf (c :: cs) = true
      · obtain ⟨t, ht⟩ := List.isPrefixOf_iff_prefix.mp hpre
        have htne : t ≠ [] := by
          intro h0; rw [h0, List.append_nil] at ht; exact hne ht
        obtain ⟨d, t', hdt⟩ := List.exists_cons_of_ne_nil htne
        have hd : isWordChar d = true :=
          hw d (by rw [← ht, hdt]; exact List.mem_append_right _ (List.mem_cons_self d t'))
        have hlast : isWordChar (pat.getLast hpat) = true :=
          hw _ (by rw [← ht]; exact List.mem_append_left _ (List.getLast_mem hpat))
        have hdrop : (c :: cs).drop pat.length = d :: t' := by
          rw [← ht, List.drop_left, hdt]
        have hemp : pat.isEmpty = false := by
          cases pat with
          | nil => exact absurd rfl hpat
          | cons _ _ => rfl
        simp only [matchesWordAt, hdrop, hemp, List.getLast?_eq_getLast _ hpat,
          List.head?_cons, wordBoundary, Option.elim, hlast, hd, bne_self_eq_false,
          Bool.and_false, Bool.false_eq_true, if_false]
      · simp [matchesWordAt, hpre]
    rw [replaceWord, replaceWordAux, if_neg (by simp [hno]),
      replaceWordAux_inside pat rep c cs hc (fun d hd => hw d (List.mem_cons_of_mem c hd))]

/-- The loop of whole-word replacements leaves a run of word characters alone
when no key of the table is the whole run. -/
theorem EnhancedFuzzyMatcher.applyVariations_of_not_key
    (table : List (List Char × List Char)) (w : List Char)
    (hw : ∀ c ∈ w, isWordChar c = true)
    (hkey : ∀ e ∈ table, e.1 ≠ w) (hpat : ∀ e ∈ table, e.1 ≠ []) :
    EnhancedFuzzyMatcher.applyVariations table w = w := by
  induction table with
  | nil => rfl
  | cons e table ih =>
    simp only [EnhancedFuzzyMatcher.applyVariations, List.foldl_cons]
    rw [replaceWord_of_ne e.1 e.2 w hw (hkey e (List.mem_cons_self e table))
      (hpat e (List.mem_cons_self e table))]
    exact ih (fun e' he' => hkey e' (List.mem_cons_of_mem e he'))
      (fun e' he' => hpat e' (List.mem_cons_of_mem e he'))

open EnhancedFuzzyMatcher in
/-- C23. The variant-folding step leaves every word of lower-case ASCII
letters that is no key of the variant dictionary unchanged, also when a key
occurs inside the word. -/
theorem variant_folding_respects_words (w : List Char)
    (hletters : ∀ c ∈ w, 0x61 ≤ c.toNat ∧ c.toNat ≤ 0x7A)
    (hkey : ∀ e ∈ commonVariations, e.1 ≠ w) :
    applyVariations commonVariations w = w := by
  apply applyVariations_of_not_key commonVariations w _ hkey (by decide)
  intro c hc
  have := hletters c hc
  simp only [isWordChar, Bool.or_eq_true, Bool.and_eq_true, decide_eq_true_eq]
  exact Or.inl (Or.inl (Or.inl this))

open EnhancedFuzzyMatcher in
/-- C23, at the word 'alison', which holds the key 'ali': the variant-folding
step and the whole normalizer leave it unchanged. -/
theorem variant_folding_respects_words_witness :
    includes "alison".toList "ali".toList = true ∧
    applyVariations commonVariations "alison".toList = "alison".toList ∧
    normalizeArabicName (some "alison".toList) = "alison".toList :=
  ⟨by decide,
    variant_folding_respects_words "alison".toList (by decide) (by decide),
    by decide⟩

/-! ## Shadowed entries of the prefix list -/

/-- The prefix loop rewrites with the first prefix that the string starts
with. -/
theorem normalizePrefix_eq_find (ps : List (List Char)) (s : List Char) :
    normalizePrefix ps s =
      match ps.find? (startsWith s) with
      | some p => stripPrefix p ++ ' ' :: trim (s.drop p.length)
      | none => s := by
  induction ps with
  | nil => rfl
  | cons p ps ih =>
    by_cases hp : startsWith s p = true
    · simp [normalizePrefix, List.find?_cons, hp]
    · simp only [normalizePrefix, hp, List.find?_cons]
      exact ih

/-- An entry that can only pass the test when an earlier entry passes it is
never found. -/
theorem find_skips_shadowed (f : List Char → Bool) (l1 l2 : List (List Char))
    (p : List Char) (h : f p = true → ∃ q ∈ l1, f q = true) :
    (l1 ++ p :: l2).find? f = (l1 ++ l2).find? f := by
  induction l1 with
  | nil =>
    have hp : f p = false := by
      cases hf : f p with
      | false => rfl
      | true => obtain ⟨q, hq, _⟩ := h hf; cases hq
    simp [List.find?_cons, hp]
  | cons a l1 ih =>
    by_cases ha : f a = true
    · simp [List.find?_cons, ha]
    · have h' : f p = true → ∃ q ∈ l1, f q = true := by
        intro hf
        obtain ⟨q, hq, hfq⟩ := h hf
        rcases List.mem_cons.mp hq with hqa | hql
        · rw [hqa] at hfq; exact absurd hfq ha
        · exact ⟨q, hql, hfq⟩
      simp only [List.cons_append, List.find?_cons, ha]
      exact ih h'

/-- A string that starts with `p` starts with every start of `p`. -/
theorem startsWith_of_prefix (s p q : List Char) (hq : q <+: p)
    (hp : startsWith s p = true) : startsWith s q = true := by
  rw [startsWith, List.isPrefixOf_iff_prefix] at hp ⊢
  exact hq.trans hp

/-- The two prefix lists find the same prefix for every string. -/
theorem find_reducedPrefixes (s : List Char) :
    arabicPrefixes.find? (startsWith s) = reducedPrefixes.find? (startsWith s) := by
  have habd : ∀ p : List Char, "abd".toList <+: p → startsWith s p = true →
      ∃ q ∈ ["al-".toList, "el-".toList, "al ".toList, "el ".toList, "abd".toList],
        startsWith s q = true :=
    fun p hq hp => ⟨"abd".toList, by decide, startsWith_of_prefix s p _ hq hp⟩
  have e1 : arabicPrefixes =
      ["al-".toList, "el-".toList, "al ".toList, "el ".toList, "abd".toList] ++
      "abdul".toList :: ["abdel".toList, "abdal".toList, "abu".toList, "abou".toList,
        "abo".toList, "bin".toList, "ibn".toList, "ben".toList, "al-".toList, "ad-".toList,
        "ar-".toList, "as-".toList, "at-".toList, "an-".toList] := rfl
  rw [e1, find_skips_shadowed (startsWith s) _ _ "abdul".toList
    (habd "abdul".toList ⟨"ul".toList, rfl⟩)]
  have e2 : ["al-".toList, "el-".toList, "al ".toList, "el ".toList, "abd".toList] ++
      ["abdel".toList, "abdal".toList, "abu".toList, "abou".toList,
        "abo".toList, "bin".toList, "ibn".toList, "ben".toList, "al-".toList, "ad-".toList,
        "ar-".toList, "as-".toList, "at-".toList, "an-".toList] =
      ["al-".toList, "el-".toList, "al ".toList, "el ".toList, "abd".toList] ++
      "abdel".toList :: ["abdal".toList, "abu".toList, "abou".toList,
        "abo".toList, "bin".toList, "ibn".toList, "ben".toList, "al-".toList, "ad-".toList,
        "ar-".toList, "as-".toList, "at-".toList, "an-".toList] := rfl
  rw [e2, find_skips_shadowed (startsWith s) _ _ "abdel".toList
    (habd "abdel".toList ⟨"el".toList, rfl⟩)]
  have e3 : ["al-".toList, "el-".toList, "al ".toList, "el ".toList, "abd".toList] ++
      ["abdal".toList, "abu".toList, "abou".toList,
        "abo".toList, "bin".toList, "ibn".toList, "ben".toList, "al-".toList, "ad-".toList,
        "ar-".toList, "as-".toList, "at-".toList, "an-".toList] =
      ["al-".toList, "el-".toList, "al ".toList, "el ".toList, "abd".toList] ++
      "abdal".toList :: ["abu".toList, "abou".toList,
        "abo".toList, "bin".toList, "ibn".toList, "ben".toList, "al-".toList, "ad-".toList,
        "ar-".toList, "as-".toList, "at-".toList, "an-".toList] := rfl
  rw [e3, find_skips_shadowed (startsWith s) _ _ "abdal".toList
    (habd "abdal".toList ⟨"al".toList, rfl⟩)]
  have e4 : ["al-".toList, "el-".toList, "al ".toList, "el ".toList, "abd".toList] ++
      ["abu".toList, "abou".toList,
        "abo".toList, "bin".toList, "ibn".toList, "ben".toList, "al-".toList, "ad-".toList,
        "ar-".toList, "as-".toList, "at-".toList, "an-".toList] =
      ["al-".toList, "el-".toList, "al ".toList, "el ".toList, "abd".toList,
        "abu".toList, "abou".toList, "abo".toList, "bin".toList, "ibn".toList,
        "ben".toList] ++
      "al-".toList :: ["ad-".toList, "ar-".toList, "as-".toList, "at-".toList,
        "an-".toList] := rfl
  rw [e4, find_skips_shadowed (startsWith s) _ _ "al-".toList
    (fun hp => ⟨"al-".toList, by decide, hp⟩)]
  rfl

open EnhancedFuzzyMatcher in
/-- C28. With 'abdul', 'abdel', 'abdal' and the second 'al-' removed from the
prefix list, `normalizeArabicName` gives the same output for every input; and
in the prefix step a string that starts with 'abdul', 'abdel' or 'abdal' is
split after 'abd'. -/
theorem shadowed_prefixes_are_dead (name : Option (List Char)) (s : List Char) :
    normalizeArabicNameWith reducedPrefixes name = normalizeArabicName name ∧
    (startsWith s "abdul".toList = true ∨ startsWith s "abdel".toList = true ∨
        startsWith s "abdal".toList = true →
      normalizePrefix arabicPrefixes s = "abd ".toList ++ trim (s.drop 3)) := by
  constructor
  · have hpre : ∀ t, normalizePrefix reducedPrefixes t = normalizePrefix arabicPrefixes t := by
      intro t
      rw [normalizePrefix_eq_find, normalizePrefix_eq_find, find_reducedPrefixes]
    cases name with
    | none => rfl
    | some x =>
      simp only [normalizeArabicNameWith, normalizeStepsWith, normalizeArabicName,
        normalizeSteps, hpre]
  · intro h
    have habd : startsWith s "abd".toList = true := by
      rcases h with h | h | h
      · exact startsWith_of_prefix s _ _ ⟨"ul".toList, rfl⟩ h
      · exact startsWith_of_prefix s _ _ ⟨"el".toList, rfl⟩ h
      · exact startsWith_of_prefix s _ _ ⟨"al".toList, rfl⟩ h
    rw [startsWith, List.isPrefixOf_iff_prefix] at habd
    obtain ⟨t, ht⟩ := habd
    subst ht
    show normalizePrefix arabicPrefixes ('a' :: 'b' :: 'd' :: t) = _
    simp [normalizePrefix, arabicPrefixes, startsWith, stripPrefix, List.isPrefixOf]

/-! ## The word overlap -/

/-- The members of what the loop of `eraseDups` returns. -/
theorem mem_eraseDups_loop {α : Type} [BEq α] [LawfulBEq α] [DecidableEq α] (l bs : List α) (a : α) :
    a ∈ List.eraseDups.loop l bs ↔ a ∈ l ∨ a ∈ bs := by
  induction l generalizing bs with
  | nil => simp [List.eraseDups.loop]
  | cons x l ih =>
    rw [List.eraseDups.loop]
    cases h : List.elem x bs with
    | true =>
      simp only [ih, List.mem_cons]
      have hx : x ∈ bs := by simpa using h
      constructor
      · rintro (h1 | h1)
        · exact Or.inl (Or.inr h1)
        · exact Or.inr h1
      · rintro ((h1 | h1) | h1)
        · exact Or.inr (h1 ▸ hx)
        · exact Or.inl h1
        · exact Or.inr h1
    | false =>
      simp only [ih, List.mem_cons]
      tauto

/-- The loop of `eraseDups` returns a list without repetition. -/
theorem nodup_eraseDups_loop {α : Type} [BEq α] [LawfulBEq α] [DecidableEq α] (l bs : List α) (h : bs.Nodup) :
    (List.eraseDups.loop l bs).Nodup := by
  induction l generalizing bs with
  | nil => simpa [List.eraseDups.loop] using h
  | cons x l ih =>
    rw [List.eraseDups.loop]
    cases hx : List.elem x bs with
    | true => exact ih bs h
    | false =>
      have hx' : x ∉ bs := by simpa using hx
      exact ih (x :: bs) (List.nodup_cons.mpr ⟨hx', h⟩)

/-- The size of `new Set(list)`. -/
theorem length_eraseDups {α : Type} [BEq α] [LawfulBEq α] [DecidableEq α] (l : List α) :
    l.eraseDups.length = l.toFinset.card := by
  have hn : l.eraseDups.Nodup := nodup_eraseDups_loop l [] List.nodup_nil
  rw [← List.toFinset_card_of_nodup hn]
  congr 1
  ext a
  simp [List.eraseDups, mem_eraseDups_loop]

/-- The size of the intersection as the word-overlap loop computes it. -/
theorem length_filter_eraseDups {α : Type} [BEq α] [LawfulBEq α] [DecidableEq α] (l m : List α) :
    (l.eraseDups.filter (fun x => m.eraseDups.contains x)).length
      = (l.toFinset ∩ m.toFinset).card := by
  have hn : (l.eraseDups.filter (fun x => m.eraseDups.contains x)).Nodup :=
    (nodup_eraseDups_loop l [] List.nodup_nil).filter _
  rw [← List.toFinset_card_of_nodup hn]
  congr 1
  ext a
  simp [List.eraseDups, mem_eraseDups_loop]

open EnhancedFuzzyMatcher in
/-- The test of the word-overlap loop is the condition on the two token sets. -/
theorem EnhancedFuzzyMatcher.wordsOverlap_iff (inputWords : List (List Char))
    (variation : List Char) :
    wordsOverlap inputWords variation = true ↔
      sharesHalf inputWords (words (normalizeArabicName (some variation))) := by
  simp only [wordsOverlap, sharesHalf, decide_eq_true_eq, gt_iff_lt, ge_iff_le]
  rw [length_filter_eraseDups, length_eraseDups, length_eraseDups]

open EnhancedFuzzyMatcher in
/-- C25. For an input of several tokens and at least 3 normalized characters
that equals no candidate exactly and for which the approximate search has no
result: if some entry of `allVariations` has a normalized token set that
shares at least one token with the token set of the input, the shared tokens
being at least half of the smaller set, the result is correct with score 85
and the first such entry as label; otherwise the result is incorrect with
score 0 and no label; so the result is correct exactly when there is such an
entry. -/
theorem word_overlap_fallback (fuse : FuseSearch)
    (userInput : Option (List Char)) (c : CelebrityData)
    (hname : normalizeArabicName userInput ≠ normalizeArabicName (some c.name))
    (halias : ∀ a ∈ aliasesOrEmpty c, normalizeArabicName userInput ≠ normalizeArabicName (some a))
    (harabic : truthy c.arabic_name = true →
      normalizeArabicName userInput ≠ normalizeArabicName c.arabic_name)
    (hlen : 3 ≤ jsLength (normalizeArabicName userInput))
    (hmulti : 1 < (words (normalizeArabicName userInput)).length)
    (hnone : fuse (allVariations c) (normalizeArabicName userInput) = []) :
    ((∃ v ∈ allVariations c, sharesHalf (words (normalizeArabicName userInput))
        (words (normalizeArabicName (some v)))) →
      ∃ before v after, allVariations c = before ++ v :: after ∧
        sharesHalf (words (normalizeArabicName userInput))
          (words (normalizeArabicName (some v))) ∧
        (∀ u ∈ before, ¬ sharesHalf (words (normalizeArabicName userInput))
          (words (normalizeArabicName (some u)))) ∧
        matchCelebrityName fuse userInput c = ⟨true, 85, some v⟩) ∧
    ((¬ ∃ v ∈ allVariations c, sharesHalf (words (normalizeArabicName userInput))
        (words (normalizeArabicName (some v)))) →
      matchCelebrityName fuse userInput c = ⟨false, 0, none⟩) ∧
    ((matchCelebrityName fuse userInput c).isCorrect = true ↔
      ∃ v ∈ allVariations c, sharesHalf (words (normalizeArabicName userInput))
        (words (normalizeArabicName (some v)))) := by
  have h := matchCelebrityName_at_search fuse userInput c hname halias harabic hlen hmulti
  rw [hnone] at h
  have hyes : (∃ v ∈ allVariations c, sharesHalf (words (normalizeArabicName userInput))
        (words (normalizeArabicName (some v)))) →
      ∃ before v after, allVariations c = before ++ v :: after ∧
        sharesHalf (words (normalizeArabicName userInput))
          (words (normalizeArabicName (some v))) ∧
        (∀ u ∈ before, ¬ sharesHalf (words (normalizeArabicName userInput))
          (words (normalizeArabicName (some u)))) ∧
        matchCelebrityName fuse userInput c = ⟨true, 85, some v⟩ := by
    rintro ⟨v, hv, hq⟩
    have hsome : ((allVariations c).find?
        (wordsOverlap (words (normalizeArabicName userInput)))).isSome = true := by
      rw [List.find?_isSome]
      exact ⟨v, hv, (wordsOverlap_iff _ v).mpr hq⟩
    obtain ⟨w, hw⟩ := Option.isSome_iff_exists.mp hsome
    obtain ⟨hpw, before, after, hsplit, hbefore⟩ := List.find?_eq_some.mp hw
    refine ⟨before, w, after, hsplit, (wordsOverlap_iff _ w).mp hpw, fun u hu hq' => ?_, ?_⟩
    · have := hbefore u hu
      rw [(wordsOverlap_iff _ u).mpr hq'] at this
      exact absurd this (by decide)
    · rw [h]
      simp only [fuseVerdict, wordOverlapMatch, hw]
  have hno : (¬ ∃ v ∈ allVariations c, sharesHalf (words (normalizeArabicName userInput))
        (words (normalizeArabicName (some v)))) →
      matchCelebrityName fuse userInput c = ⟨false, 0, none⟩ := by
    intro hq
    have hfind : (allVariations c).find?
        (wordsOverlap (words (normalizeArabicName userInput))) = none := by
      rw [List.find?_eq_none]
      intro v hv hp
      exact hq ⟨v, hv, (wordsOverlap_iff _ v).mp hp⟩
    rw [h]
    simp only [fuseVerdict, wordOverlapMatch, hfind]
    rfl
  refine ⟨hyes, hno, ?_⟩
  constructor
  · intro hc
    by_contra hq
    rw [hno hq] at hc
    exact absurd hc (by decide)
  · intro hq
    obtain ⟨_, v, _, _, _, _, hres⟩ := hyes hq
    rw [hres]

open EnhancedFuzzyMatcher in
/-- C25, at the input 'Omar Sharif Egypt' for the record 'Omar Sharif' with a
search that has no result: the result is correct. -/
theorem word_overlap_fallback_witness :
    (matchCelebrityName (fun _ _ => []) (some "Omar Sharif Egypt".toList)
      ⟨"Omar Sharif".toList, none, none⟩).isCorrect = true ↔
    ∃ v ∈ allVariations ⟨"Omar Sharif".toList, none, none⟩,
      sharesHalf (words (normalizeArabicName (some "Omar Sharif Egypt".toList)))
        (words (normalizeArabicName (some v))) :=
  (word_overlap_fallback (fun _ _ => []) (some "Omar Sharif Egypt".toList)
    ⟨"Omar Sharif".toList, none, none⟩ (by decide) (by decide) (by decide) (by decide)
    (by decide) rfl).2.2

/-! ## `ImageCache.generateCacheKey` -/

/-- After the first replacement every character is in `[a-z0-9]` or is an
underscore. -/
theorem ImageCache.mem_replaceNonAlnum (s : List Char) (c : Char)
    (h : c ∈ ImageCache.replaceNonAlnum s) : ImageCache.isLowerAlnum c = true ∨ c = '_' := by
  simp only [ImageCache.replaceNonAlnum, List.mem_flatMap] at h
  obtain ⟨a, _, hc⟩ := h
  split at hc
  · next ha => rw [List.mem_singleton.mp hc]; exact Or.inl ha
  · split at hc
    · exact Or.inr (List.mem_singleton.mp hc)
    · simp only [List.mem_cons, List.mem_singleton, List.not_mem_nil, or_false, or_self] at hc
      exact Or.inr hc

/-- The first replacement keeps a string non-empty. -/
theorem ImageCache.replaceNonAlnum_ne_nil (s : List Char) (h : s ≠ []) :
    ImageCache.replaceNonAlnum s ≠ [] := by
  cases s with
  | nil => exact absurd rfl h
  | cons a s =>
    simp only [ImageCache.replaceNonAlnum, List.flatMap_cons]
    split
    · simp
    · split <;> simp

/-- The collapse of underscores adds no character. -/
theorem ImageCache.mem_collapseUnderscoresAux (b : Bool) (s : List Char) (c : Char)
    (h : c ∈ ImageCache.collapseUnderscoresAux b s) : c ∈ s := by
  induction s generalizing b with
  | nil => simp [ImageCache.collapseUnderscoresAux] at h
  | cons a s ih =>
    simp only [ImageCache.collapseUnderscoresAux] at h
    split at h
    · next ha =>
      split at h
      · exact List.mem_cons_of_mem a (ih _ h)
      · rcases List.mem_cons.mp h with h | h
        · rw [h, ha]; exact List.mem_cons_self _ _
        · exact List.mem_cons_of_mem a (ih _ h)
    · rcases List.mem_cons.mp h with h | h
      · rw [h]; exact List.mem_cons_self _ _
      · exact List.mem_cons_of_mem a (ih _ h)

/-- The collapse of underscores keeps a string non-empty. -/
theorem ImageCache.collapseUnderscores_ne_nil (s : List Char) (h : s ≠ []) :
    ImageCache.collapseUnderscoresAux false s ≠ [] := by
  cases s with
  | nil => exact absurd rfl h
  | cons a s =>
    simp only [ImageCache.collapseUnderscoresAux]
    split <;> simp

/-- `substringTo n` keeps at most `n` characters. -/
theorem length_substringTo (n : Nat) (s : List Char) : (substringTo n s).length ≤ n := by
  induction s generalizing n with
  | nil => simp [substringTo]
  | cons c s ih =>
    by_cases hfit : (if c.toNat < 0x10000 then 1 else 2) ≤ n
    · rw [substringTo, if_pos hfit, List.length_cons]
      generalize hw : (if c.toNat < 0x10000 then 1 else 2) = w at hfit ⊢
      have hpos : 1 ≤ w := by rw [← hw]; split <;> omega
      have := ih (n - w)
      omega
    · rw [substringTo, if_neg hfit]; simp

/-- A character of `substringTo n s` is a character of `s`. -/
theorem mem_of_mem_substringTo (n : Nat) (s : List Char) (c : Char)
    (h : c ∈ substringTo n s) : c ∈ s := by
  obtain ⟨t, ht⟩ := substringTo_prefix n s
  rw [← ht]
  exact List.mem_append_left t h

/-- C21. `generateCacheKey` gives equal keys for equal names, and for every
non-empty name it returns a non-empty key of at most 100 characters, each of
them in `a-z`, in `0-9` or the underscore. -/
theorem cache_key_is_well_formed (celebrityName : List Char) (hne : celebrityName ≠ []) :
    (∀ other, other = celebrityName →
      ImageCache.generateCacheKey other = ImageCache.generateCacheKey celebrityName) ∧
    ImageCache.generateCacheKey celebrityName ≠ [] ∧
    (ImageCache.generateCacheKey celebrityName).length ≤ 100 ∧
    jsLength (ImageCache.generateCacheKey celebrityName) ≤ 100 ∧
    (∀ c ∈ ImageCache.generateCacheKey celebrityName,
      ImageCache.isLowerAlnum c = true ∨ c = '_') := by
  have hchars : ∀ c ∈ ImageCache.collapseUnderscoresAux false
      (ImageCache.replaceNonAlnum (toLowerCase celebrityName)),
      ImageCache.isLowerAlnum c = true ∨ c = '_' :=
    fun c hc => ImageCache.mem_replaceNonAlnum _ c
      (ImageCache.mem_collapseUnderscoresAux false _ c hc)
  have hkey : ∀ c ∈ ImageCache.generateCacheKey celebrityName,
      ImageCache.isLowerAlnum c = true ∨ c = '_' :=
    fun c hc => hchars c (mem_of_mem_substringTo 100 _ c hc)
  have hunit : ∀ c : Char, ImageCache.isLowerAlnum c = true ∨ c = '_' → c.toNat < 0x10000 := by
    intro c hc
    rcases hc with hc | hc
    · simp only [ImageCache.isLowerAlnum, Bool.or_eq_true, Bool.and_eq_true,
        decide_eq_true_eq] at hc
      omega
    · rw [hc]; decide
  have hlow : toLowerCase celebrityName ≠ [] := by
    cases celebrityName with
    | nil => exact absurd rfl hne
    | cons a t => simp [toLowerCase]
  have hlen := length_substringTo 100 (ImageCache.collapseUnderscoresAux false
    (ImageCache.replaceNonAlnum (toLowerCase celebrityName)))
  refine ⟨fun other h => by rw [h], ?_, hlen, ?_, hkey⟩
  · have h2 := ImageCache.collapseUnderscores_ne_nil _
      (ImageCache.replaceNonAlnum_ne_nil _ hlow)
    obtain ⟨c, t, hct⟩ := List.exists_cons_of_ne_nil h2
    have hc := hunit c (hchars c (by rw [hct]; exact List.mem_cons_self c t))
    simp only [ImageCache.generateCacheKey, hct, substringTo, hc, if_true]
    simp
  · have hone : ∀ l : List Char, (∀ c ∈ l, c.toNat < 0x10000) → jsLength l = l.length := by
      intro l hl
      induction l with
      | nil => rfl
      | cons a l ih =>
        have ha := hl a (List.mem_cons_self a l)
        have := ih (fun c hc => hl c (List.mem_cons_of_mem a hc))
        simp only [jsLength, List.map_cons, List.sum_cons, ha, if_true, List.length_cons] at this ⊢
        omega
    rw [hone _ (fun c hc => hunit c (hkey c hc))]
    exact hlen

/-- C21, at the name 'Omar Sharif' of the test, whose key is 'omar_sharif'. -/
theorem cache_key_is_well_formed_witness :
    ImageCache.generateCacheKey "Omar Sharif".toList = "omar_sharif".toList ∧
    (ImageCache.generateCacheKey "Omar Sharif".toList).length ≤ 100 :=
  ⟨by decide, (cache_key_is_well_formed "Omar Sharif".toList (by decide)).2.2.1⟩

/-! ## Dictionary pairs and one-word names -/

open EnhancedFuzzyMatcher in
/-- C22 fails on the code: 'khaled' normalizes to 'haled' and 'khalid' to
'halid', because the digraph step has turned 'kh' into 'h' before the variant
step looks for the keys 'khaled' and 'khalid'.  The entries whose two
spellings keep different normalized forms are those of the keys 'abd allah',
'khalid', 'khaled', 'aisha', 'aishah', 'ibrahim' and 'ebraheem'; the other 46
entries are unified. -/
theorem variant_pairs_not_unified :
    normalizeArabicName (some "khaled".toList) = "haled".toList ∧
    normalizeArabicName (some "khalid".toList) = "halid".toList ∧
    (commonVariations.filter (fun e =>
        normalizeArabicName (some e.1) != normalizeArabicName (some e.2))).map (fun e => e.1)
      = ["abd allah".toList, "khalid".toList, "khaled".toList, "aisha".toList,
          "aishah".toList, "ibrahim".toList, "ebraheem".toList] := by
  decide

open EnhancedFuzzyMatcher in
/-- C27 fails on the code: the one-word names 'Abdullah' and 'Benzema'
normalize to the two tokens 'abd allah' and 'ben zema', because the prefix
step splits off 'abd' and 'ben' wherever the string starts with them, also
inside a word; so the alias rule counts 'Benzema' as a name of two words and
rejects its one-word alias 'Karim', against the comment of that rule, 'For
single-word celebrities, accept both single and multi-word aliases'. -/
theorem one_word_name_is_split :
    words (normalizeArabicName (some "Abdullah".toList)) = ["abd".toList, "allah".toList] ∧
    words (normalizeArabicName (some "Benzema".toList)) = ["ben".toList, "zema".toList] ∧
    ∀ fuse : FuseSearch,
      matchCelebrityName fuse (some "Karim".toList)
        ⟨"Benzema".toList, some ["Karim".toList], none⟩ = ⟨false, 0, none⟩ := by
  exact ⟨by decide, by decide, fun _ => rfl⟩

/-! ## The edit distance -/

/-- The distance from a sequence to the empty sequence is its length. -/
theorem lev_nil_right {α : Type} [DecidableEq α] (a : List α) : lev a [] = a.length := by
  cases a with
  | nil => exact lev.eq_1 []
  | cons x a => exact lev.eq_2 _ (by simp)

/-- The distance between two non-empty sequences. -/
theorem lev_cons_cons {α : Type} [DecidableEq α] (x y : α) (a b : List α) :
    lev (x :: a) (y :: b) =
      if x = y then lev a b
      else min (lev a b + 1) (min (lev (x :: a) b + 1) (lev a (y :: b) + 1)) :=
  lev.eq_3 x a y b

/-- The distance from a sequence to itself is 0. -/
theorem lev_self {α : Type} [DecidableEq α] (a : List α) : lev a a = 0 := by
  induction a with
  | nil => exact lev.eq_1 []
  | cons x a ih => rw [lev_cons_cons, if_pos rfl, ih]

/-- The recursive distance is symmetric. -/
theorem lev_comm {α : Type} [DecidableEq α] (a b : List α) : lev a b = lev b a := by
  induction a generalizing b with
  | nil => rw [lev.eq_1, lev_nil_right]
  | cons x a iha =>
    induction b with
    | nil => rw [lev.eq_1, lev_nil_right]
    | cons y b ihb =>
      rw [lev_cons_cons, lev_cons_cons, iha b, iha (y :: b), ihb]
      by_cases hxy : x = y
      · rw [if_pos hxy, if_pos hxy.symm]
      · rw [if_neg hxy, if_neg (fun h => hxy h.symm)]
        omega

/-- One more element at the front of the first sequence moves the distance by
at most one, either way; stated for all pairs of a given total length. -/
theorem lev_cons_left_of_size {α : Type} [DecidableEq α] (n : Nat) :
    ∀ (a b : List α) (x : α), a.length + b.length = n →
      lev (x :: a) b ≤ lev a b + 1 ∧ lev a b ≤ lev (x :: a) b + 1 := by
  induction n using Nat.strong_induction_on with
  | _ n ih =>
    intro a b x hn
    cases b with
    | nil =>
      rw [lev_nil_right, lev_nil_right, List.length_cons]
      omega
    | cons y b =>
      have hsize : a.length + b.length < n := by
        rw [← hn, List.length_cons]; omega
      have a1 := ih _ hsize a b x rfl
      have b1 := ih _ hsize b a y (Nat.add_comm _ _)
      rw [lev_comm (y :: b) a, lev_comm b a] at b1
      rw [lev_cons_cons]
      by_cases hxy : x = y
      · rw [if_pos hxy]; omega
      · rw [if_neg hxy]; omega

/-- One more element at the front of the first sequence moves the distance by
at most one, either way. -/
theorem lev_cons_left {α : Type} [DecidableEq α] (a b : List α) (x : α) :
    lev (x :: a) b ≤ lev a b + 1 ∧ lev a b ≤ lev (x :: a) b + 1 :=
  lev_cons_left_of_size _ a b x rfl

/-- One more element at the front of the second sequence moves the distance by
at most one, either way. -/
theorem lev_cons_right {α : Type} [DecidableEq α] (a b : List α) (y : α) :
    lev a (y :: b) ≤ lev a b + 1 ∧ lev a b ≤ lev a (y :: b) + 1 := by
  have := lev_cons_left b a y
  rwa [lev_comm (y :: b) a, lev_comm b a] at this

/-- Another first element moves the distance by at most one. -/
theorem lev_subst_head {α : Type} [DecidableEq α] (x y : α) (r c : List α) : lev (x :: r) c ≤ lev (y :: r) c + 1 := by
  induction c with
  | nil => rw [lev_nil_right, lev_nil_right]; simp
  | cons w c ih =>
    have a1 := (lev_cons_left r c y).2
    have a2 := (lev_cons_right r c w).2
    rw [lev_cons_cons, lev_cons_cons]
    by_cases hx : x = w <;> by_cases hy : y = w
    · rw [if_pos hx, if_pos hy]; omega
    · rw [if_pos hx, if_neg hy]; omega
    · rw [if_neg hx, if_pos hy]; omega
    · rw [if_neg hx, if_neg hy]; omega

/-- A bound of one on the change of the distance passes under a common first
element. -/
theorem lev_cons_congr {α : Type} [DecidableEq α] (z : α) (a b : List α) (h : ∀ c, lev a c ≤ lev b c + 1) :
    ∀ c, lev (z :: a) c ≤ lev (z :: b) c + 1 := by
  intro c
  induction c with
  | nil =>
    have := h []
    rw [lev_nil_right, lev_nil_right] at this ⊢
    simp only [List.length_cons]
    omega
  | cons w c ih =>
    have h1 := h c
    have h2 := h (w :: c)
    rw [lev_cons_cons, lev_cons_cons]
    by_cases hz : z = w
    · rw [if_pos hz, if_pos hz]; exact h1
    · rw [if_neg hz, if_neg hz]; omega

/-- One edit of the first sequence moves the distance by at most one. -/
theorem lev_le_of_editStep {α : Type} [DecidableEq α] (a b : List α) (h : EditStep a b) (c : List α) :
    lev a c ≤ lev b c + 1 := by
  cases h with
  | insert l r x =>
    induction l generalizing c with
    | nil => exact (lev_cons_left r c x).2
    | cons z l ih => exact lev_cons_congr z _ _ (fun c => ih c) c
  | delete l r x =>
    induction l generalizing c with
    | nil => exact (lev_cons_left r c x).1
    | cons z l ih => exact lev_cons_congr z _ _ (fun c => ih c) c
  | substitute l r x y =>
    induction l generalizing c with
    | nil => exact lev_subst_head x y r c
    | cons z l ih => exact lev_cons_congr z _ _ (fun c => ih c) c

/-- No sequence of edits is shorter than the recursive distance. -/
theorem lev_le_of_editsIn {α : Type} [DecidableEq α] (n : Nat) (a b : List α) (h : EditsIn n a b) : lev a b ≤ n := by
  induction h with
  | done a => rw [lev_self]
  | step hs _ ih => exact Nat.le_trans (lev_le_of_editStep _ _ hs _) (Nat.succ_le_succ ih)

/-- An edit stays an edit under a common first element. -/
theorem editStep_cons {α : Type} (z : α) (a b : List α) (h : EditStep a b) : EditStep (z :: a) (z :: b) := by
  cases h with
  | insert l r x => exact EditStep.insert (z :: l) r x
  | delete l r x => exact EditStep.delete (z :: l) r x
  | substitute l r x y => exact EditStep.substitute (z :: l) r x y

/-- A sequence of edits stays one under a common first element. -/
theorem editsIn_cons {α : Type} (z : α) (n : Nat) (a b : List α) (h : EditsIn n a b) :
    EditsIn n (z :: a) (z :: b) := by
  induction h with
  | done a => exact EditsIn.done _
  | step hs _ ih => exact EditsIn.step (editStep_cons z _ _ hs) ih

/-- The empty sequence becomes `b` by as many insertions as `b` is long. -/
theorem editsIn_of_nil {α : Type} (b : List α) : EditsIn b.length [] b := by
  induction b with
  | nil => exact EditsIn.done _
  | cons y b ih => exact EditsIn.step (EditStep.insert [] [] y) (editsIn_cons y _ _ _ ih)

/-- The sequence `a` becomes empty by as many deletions as it is long. -/
theorem editsIn_to_nil {α : Type} (a : List α) : EditsIn a.length a [] := by
  induction a with
  | nil => exact EditsIn.done _
  | cons x a ih => exact EditsIn.step (EditStep.delete [] a x) ih

/-- The recursive distance is reached by a sequence of edits. -/
theorem editsIn_lev {α : Type} [DecidableEq α] (a b : List α) : EditsIn (lev a b) a b := by
  induction a generalizing b with
  | nil => rw [lev.eq_1]; exact editsIn_of_nil b
  | cons x a iha =>
    induction b with
    | nil => rw [lev_nil_right]; exact editsIn_to_nil _
    | cons y b ihb =>
      rw [lev_cons_cons]
      by_cases hxy : x = y
      · rw [if_pos hxy, hxy]
        exact editsIn_cons y _ _ _ (iha b)
      · rw [if_neg hxy]
        have hmin : min (lev a b + 1) (min (lev (x :: a) b + 1) (lev a (y :: b) + 1))
            = lev a b + 1 ∨
          min (lev a b + 1) (min (lev (x :: a) b + 1) (lev a (y :: b) + 1))
            = lev (x :: a) b + 1 ∨
          min (lev a b + 1) (min (lev (x :: a) b + 1) (lev a (y :: b) + 1))
            = lev a (y :: b) + 1 := by omega
        rcases hmin with h | h | h
        · rw [h]
          exact EditsIn.step (EditStep.substitute [] a x y) (editsIn_cons y _ _ _ (iha b))
        · rw [h]
          exact EditsIn.step (EditStep.insert [] (x :: a) y) (editsIn_cons y _ _ _ ihb)
        · rw [h]
          exact EditsIn.step (EditStep.delete [] a x) (iha (y :: b))

/-- The recursive distance is at most the longer length. -/
theorem lev_le_max {α : Type} [DecidableEq α] (a b : List α) : lev a b ≤ max a.length b.length := by
  induction a generalizing b with
  | nil => rw [lev.eq_1]; simp
  | cons x a iha =>
    cases b with
    | nil => rw [lev_nil_right]; simp
    | cons y b =>
      have := iha b
      rw [lev_cons_cons]
      simp only [List.length_cons]
      by_cases hxy : x = y
      · rw [if_pos hxy]; omega
      · rw [if_neg hxy]; omega

/-- The inverse of an edit is an edit. -/
theorem editStep_symm {α : Type} (a b : List α) (h : EditStep a b) : EditStep b a := by
  cases h with
  | insert l r x => exact EditStep.delete l r x
  | delete l r x => exact EditStep.insert l r x
  | substitute l r x y => exact EditStep.substitute l r y x

/-- One more edit at the end of a sequence of edits. -/
theorem editsIn_snoc {α : Type} (n : Nat) (a b c : List α) (h : EditsIn n a b) (hs : EditStep b c) :
    EditsIn (n + 1) a c := by
  induction h with
  | done a => exact EditsIn.step hs (EditsIn.done _)
  | step hs' _ ih => exact EditsIn.step hs' (ih hs)

/-- A sequence of edits read backwards. -/
theorem editsIn_symm {α : Type} (n : Nat) (a b : List α) (h : EditsIn n a b) : EditsIn n b a := by
  induction h with
  | done a => exact EditsIn.done _
  | step hs _ ih => exact editsIn_snoc _ _ _ _ ih (editStep_symm _ _ hs)

/-- An edit of the reversed sequences. -/
theorem editStep_reverse {α : Type} (a b : List α) (h : EditStep a b) :
    EditStep a.reverse b.reverse := by
  cases h with
  | insert l r x =>
    simp only [List.reverse_append, List.reverse_cons, List.append_assoc,
      List.singleton_append]
    exact EditStep.insert r.reverse l.reverse x
  | delete l r x =>
    simp only [List.reverse_append, List.reverse_cons, List.append_assoc,
      List.singleton_append]
    exact EditStep.delete r.reverse l.reverse x
  | substitute l r x y =>
    simp only [List.reverse_append, List.reverse_cons, List.append_assoc,
      List.singleton_append]
    exact EditStep.substitute r.reverse l.reverse x y

/-- A sequence of edits of the reversed sequences. -/
theorem editsIn_reverse {α : Type} (n : Nat) (a b : List α) (h : EditsIn n a b) :
    EditsIn n a.reverse b.reverse := by
  induction h with
  | done a => exact EditsIn.done _
  | step hs _ ih => exact EditsIn.step (editStep_reverse _ _ hs) ih

/-! ## The matrix of `levenshteinDistance` -/

/-- A row of distances starts with the distance of the two starts. -/
theorem levRow_eq_cons_tail {α : Type} [DecidableEq α] (p q rest : List α) :
    levRow p q rest = lev p q :: (levRow p q rest).tail := by
  cases rest <;> rfl

/-- The inner loop computes the next row of distances from the previous
one. -/
theorem EnhancedFuzzyMatcher.fillRow_levRow {α : Type} [DecidableEq α] (c2 : α) (p q rest : List α) :
    EnhancedFuzzyMatcher.fillRow c2 rest (levRow p q rest) (lev (c2 :: p) q)
      = (levRow (c2 :: p) q rest).tail := by
  induction rest generalizing q with
  | nil => rfl
  | cons c1 rest ih =>
    have hrow : levRow p q (c1 :: rest)
        = lev p q :: lev p (c1 :: q) :: (levRow p (c1 :: q) rest).tail := by
      rw [levRow, levRow_eq_cons_tail p (c1 :: q) rest]
      rfl
    rw [hrow, EnhancedFuzzyMatcher.fillRow, ← levRow_eq_cons_tail p (c1 :: q) rest]
    rw [← lev_cons_cons, ih (c1 :: q), ← levRow_eq_cons_tail]
    rfl

/-- Row `i` of the matrix from row `i - 1`. -/
theorem EnhancedFuzzyMatcher.nextRow_levRow {α : Type} [DecidableEq α] (c2 : α) (p str1 : List α) :
    EnhancedFuzzyMatcher.nextRow c2 str1 (levRow p [] str1) (p.length + 1)
      = levRow (c2 :: p) [] str1 := by
  have h0 : lev (c2 :: p) [] = p.length + 1 := by rw [lev_nil_right]; rfl
  rw [EnhancedFuzzyMatcher.nextRow, ← h0, EnhancedFuzzyMatcher.fillRow_levRow,
    ← levRow_eq_cons_tail]

/-- The outer loop ends with the row of the whole of `str2`, read backwards. -/
theorem EnhancedFuzzyMatcher.rowsLoop_levRow {α : Type} [DecidableEq α] (str1 rest p : List α) :
    EnhancedFuzzyMatcher.rowsLoop str1 rest p.length (levRow p [] str1)
      = levRow (rest.reverse ++ p) [] str1 := by
  induction rest generalizing p with
  | nil => rfl
  | cons c2 rest ih =>
    rw [EnhancedFuzzyMatcher.rowsLoop, EnhancedFuzzyMatcher.nextRow_levRow]
    have := ih (c2 :: p)
    rw [List.length_cons] at this
    rw [this, List.reverse_cons, List.append_assoc, List.singleton_append]

/-- Row 0 of the matrix. -/
theorem levRow_nil {α : Type} [DecidableEq α] (q rest : List α) :
    levRow [] q rest = List.range' q.length (rest.length + 1) := by
  induction rest generalizing q with
  | nil => rw [levRow, lev.eq_1]; rfl
  | cons c rest ih =>
    rw [levRow, lev.eq_1, ih (c :: q)]
    rfl

/-- The last entry of a row of distances. -/
theorem getLastD_levRow {α : Type} [DecidableEq α] (p q rest : List α) (d : Nat) :
    (levRow p q rest).getLastD d = lev p (rest.reverse ++ q) := by
  induction rest generalizing q d with
  | nil => rfl
  | cons c rest ih =>
    rw [levRow, List.getLastD_cons, ih (c :: q), List.reverse_cons, List.append_assoc,
      List.singleton_append]

/-- `levenshteinDistance` is the recursive distance of the reversed
arguments. -/
theorem EnhancedFuzzyMatcher.levenshteinDistance_eq_lev {α : Type} [DecidableEq α] (str1 str2 : List α) :
    EnhancedFuzzyMatcher.levenshteinDistance str1 str2 = lev str2.reverse str1.reverse := by
  have h0 : List.range (str1.length + 1) = levRow ([] : List α) [] str1 := by
    rw [levRow_nil, List.range_eq_range']
    rfl
  have h1 := EnhancedFuzzyMatcher.rowsLoop_levRow str1 str2 []
  rw [List.length_nil, List.append_nil] at h1
  rw [EnhancedFuzzyMatcher.levenshteinDistance, h0, h1, getLastD_levRow, List.append_nil]

/-- `levenshteinDistance` is reached by a sequence of edits, and by no shorter
one. -/
theorem EnhancedFuzzyMatcher.levenshteinDistance_is_least {α : Type} [DecidableEq α]
    (a b : List α) :
    EditsIn (EnhancedFuzzyMatcher.levenshteinDistance a b) a b ∧
    ∀ n, EditsIn n a b → EnhancedFuzzyMatcher.levenshteinDistance a b ≤ n := by
  rw [EnhancedFuzzyMatcher.levenshteinDistance_eq_lev]
  constructor
  · have h := editsIn_reverse _ _ _ (editsIn_lev b.reverse a.reverse)
    rw [List.reverse_reverse, List.reverse_reverse] at h
    exact editsIn_symm _ _ _ h
  · intro n hn
    exact lev_le_of_editsIn n _ _ (editsIn_reverse _ _ _ (editsIn_symm _ _ _ hn))

/-- No edits leave a sequence as it is. -/
theorem eq_of_editsIn_zero {α : Type} (a b : List α) (h : EditsIn 0 a b) : a = b := by
  cases h
  rfl

open EnhancedFuzzyMatcher in
/-- C30. `levenshteinDistance(a, b)` is defined for all sequences `a` and `b`,
empty ones included, and is the least number of insertions, deletions and
substitutions of one element that turn `a` into `b`; it is symmetric, it is 0
exactly when `a = b`, and it is at most the longer length; so
`calculateWordSimilarity` of two non-empty words lies between 0 and 1 and is 1
exactly when the words are equal. -/
theorem levenshteinDistance_is_edit_distance {α : Type} [DecidableEq α] (a b : List α) :
    EditsIn (levenshteinDistance a b) a b ∧
    (∀ n, EditsIn n a b → levenshteinDistance a b ≤ n) ∧
    levenshteinDistance a b = levenshteinDistance b a ∧
    (levenshteinDistance a b = 0 ↔ a = b) ∧
    levenshteinDistance a b ≤ max a.length b.length ∧
    (a ≠ [] → b ≠ [] →
      0 ≤ calculateWordSimilarity a b ∧ calculateWordSimilarity a b ≤ 1 ∧
      (calculateWordSimilarity a b = 1 ↔ a = b)) := by
  have hleast := levenshteinDistance_is_least a b
  have hzero : ∀ u v : List α, levenshteinDistance u v = 0 ↔ u = v := by
    intro u v
    constructor
    · intro h0
      have h := (levenshteinDistance_is_least u v).1
      rw [h0] at h
      exact eq_of_editsIn_zero u v h
    · intro huv
      rw [huv]
      exact Nat.le_zero.mp ((levenshteinDistance_is_least v v).2 0 (EditsIn.done v))
  have hmax : ∀ u v : List α, levenshteinDistance u v ≤ max u.length v.length := by
    intro u v
    rw [levenshteinDistance_eq_lev]
    have := lev_le_max v.reverse u.reverse
    rw [List.length_reverse, List.length_reverse] at this
    omega
  refine ⟨hleast.1, hleast.2, ?_, hzero a b, hmax a b, ?_⟩
  · apply Nat.le_antisymm
    · exact hleast.2 _ (editsIn_symm _ _ _ (levenshteinDistance_is_least b a).1)
    · exact (levenshteinDistance_is_least b a).2 _ (editsIn_symm _ _ _ hleast.1)
  · intro ha hb
    have hsim : ∀ u v : List α, u ≠ [] → v.length ≤ u.length →
        0 ≤ ((u.length : ℚ) - (levenshteinDistance u v : ℚ)) / (u.length : ℚ) ∧
        ((u.length : ℚ) - (levenshteinDistance u v : ℚ)) / (u.length : ℚ) ≤ 1 ∧
        (((u.length : ℚ) - (levenshteinDistance u v : ℚ)) / (u.length : ℚ) = 1 ↔ u = v) := by
      intro u v hu hlen
      have hpos : (0 : ℚ) < (u.length : ℚ) := by
        have : 0 < u.length := List.length_pos.mpr hu
        exact_mod_cast this
      have hd : (levenshteinDistance u v : ℚ) ≤ (u.length : ℚ) := by
        have := hmax u v
        have h2 : levenshteinDistance u v ≤ u.length := by omega
        exact_mod_cast h2
      have hd0 : (0 : ℚ) ≤ (levenshteinDistance u v : ℚ) := by exact_mod_cast Nat.zero_le _
      refine ⟨div_nonneg (by linarith) (le_of_lt hpos), ?_, ?_⟩
      · rw [div_le_one hpos]; linarith
      · rw [div_eq_one_iff_eq (ne_of_gt hpos)]
        constructor
        · intro h
          have h0 : (levenshteinDistance u v : ℚ) = 0 := by linarith
          exact (hzero u v).mp (by exact_mod_cast h0)
        · intro h
          rw [(hzero u v).mpr h]
          simp
    have hae : a.isEmpty = false := by
      cases a with
      | nil => exact absurd rfl ha
      | cons _ _ => rfl
    have hbe : b.isEmpty = false := by
      cases b with
      | nil => exact absurd rfl hb
      | cons _ _ => rfl
    by_cases hlen : a.length > b.length
    · have hl0 : a.length ≠ 0 := by omega
      simp only [calculateWordSimilarity, hae, hbe, hlen, if_true, hl0, if_false,
        Bool.false_eq_true, or_self]
      exact hsim a b ha (by omega)
    · have hl0 : b.length ≠ 0 := fun h => hb (List.length_eq_zero.mp h)
      simp only [calculateWordSimilarity, hae, hbe, hlen, if_false, hl0,
        Bool.false_eq_true, or_self]
      have := hsim b a hb (by omega)
      exact ⟨this.1, this.2.1, this.2.2.trans eq_comm⟩

/-! ## One word of letters through the normalizer -/

/-- A lower-case letter is no white space. -/
theorem not_white_of_isLowerLetter (c : Char) (h : isLowerLetter c = true) :
    isWhiteSpace c = false := by
  simp only [isLowerLetter, Bool.and_eq_true, decide_eq_true_eq] at h
  simp only [isWhiteSpace, Bool.or_eq_false_iff, Bool.and_eq_false_iff, beq_eq_false_iff_ne,
    ne_eq, decide_eq_false_iff_not]
  omega

/-- A lower-case letter is settled. -/
theorem isSettled_of_isLowerLetter (c : Char) (h : isLowerLetter c = true) :
    isSettled c = true := by
  simp only [isLowerLetter, Bool.and_eq_true, decide_eq_true_eq] at h
  have hl := EnhancedFuzzyMatcher.lookup_ascii c (by omega)
  simp only [isSettled, hl, Option.isNone_none, Bool.true_and, Bool.and_eq_true,
    Bool.not_eq_true', Bool.and_eq_false_iff, decide_eq_false_iff_not, isDiacritic]
  omega

/-- A string that starts and ends with characters that are no white space is
its own trimmed form. -/
theorem trim_of_ends (c : Char) (m : List Char) (y : Char) (hc : isWhiteSpace c = false)
    (hy : isWhiteSpace y = false) : trim (c :: (m ++ [y])) = c :: (m ++ [y]) := by
  rw [trim_eq, List.dropWhile_cons_of_neg (by simp [hc]), ← List.cons_append,
    List.rdropWhile_concat_neg _ _ _ (by simp [hy])]

/-- A string without white space is its own trimmed form. -/
theorem trim_of_no_white (s : List Char) (h : ∀ c ∈ s, isWhiteSpace c = false) :
    trim s = s := by
  cases s with
  | nil => rfl
  | cons c t =>
    have hc := h c (List.mem_cons_self c t)
    rcases List.eq_nil_or_concat t with ht | ⟨m, y, ht⟩
    · rw [ht, trim_eq, List.dropWhile_cons_of_neg (by simp [hc])]
      exact List.rdropWhile_concat_neg _ [] c (by simp [hc])
    · rw [List.concat_eq_append] at ht
      rw [ht]
      exact trim_of_ends c m y hc
        (h y (by rw [ht]; exact List.mem_cons_of_mem c (List.mem_append_right m
          (List.mem_singleton_self y))))

/-- A string without white space, a space and another such string make a
collapsed string. -/
theorem isCollapsed_append_space (p rest : List Char)
    (hp : ∀ c ∈ p, isWhiteSpace c = false) (hr : ∀ c ∈ rest, isWhiteSpace c = false) :
    isCollapsed false (p ++ ' ' :: rest) = true ∧ isCollapsed false p = true := by
  have hnw : ∀ (b : Bool) (t : List Char), (∀ c ∈ t, isWhiteSpace c = false) →
      isCollapsed b t = true := by
    intro b t ht
    induction t generalizing b with
    | nil => rfl
    | cons x t ih =>
      simp only [isCollapsed, ht x (List.mem_cons_self x t), Bool.false_eq_true, if_false]
      exact ih false (fun c hc => ht c (List.mem_cons_of_mem x hc))
  refine ⟨?_, hnw false p hp⟩
  induction p with
  | nil =>
    have hsp : isWhiteSpace ' ' = true := by decide
    simp [isCollapsed, hsp, hnw true rest hr]
  | cons x p ih =>
    simp only [List.cons_append, isCollapsed, hp x (List.mem_cons_self x p),
      Bool.false_eq_true, if_false]
    exact ih (fun c hc => hp c (List.mem_cons_of_mem x hc))

/-- Splitting a string without the separator gives one piece. -/
theorem splitAux_of_not_mem (sep : Char) (cur s : List Char) (h : sep ∉ s) :
    splitAux sep cur s = [cur.reverse ++ s] := by
  induction s generalizing cur with
  | nil => simp [splitAux]
  | cons c s ih =>
    have hc : c ≠ sep := fun hcs => h (hcs ▸ List.mem_cons_self c s)
    rw [splitAux, if_neg hc, ih (c :: cur) (fun hs => h (List.mem_cons_of_mem c hs))]
    simp

/-- Splitting at the first separator. -/
theorem splitAux_append_sep (sep : Char) (cur p rest : List Char) (h : sep ∉ p) :
    splitAux sep cur (p ++ sep :: rest) = (cur.reverse ++ p) :: splitAux sep [] rest := by
  induction p generalizing cur with
  | nil => simp [splitAux]
  | cons c p ih =>
    have hc : c ≠ sep := fun hcs => h (hcs ▸ List.mem_cons_self c p)
    rw [List.cons_append, splitAux, if_neg hc,
      ih (c :: cur) (fun hs => h (List.mem_cons_of_mem c hs))]
    simp

/-- A non-empty string without space is one token. -/
theorem words_of_no_space (s : List Char) (hne : s ≠ []) (h : ' ' ∉ s) : words s = [s] := by
  have hlen : 0 < s.length := List.length_pos.mpr hne
  simp [words, splitSpace, splitAux_of_not_mem ' ' [] s h, hlen]

/-- Two non-empty strings without space, with one space between them, are two
tokens. -/
theorem words_of_one_space (p rest : List Char) (hp : p ≠ []) (hr : rest ≠ [])
    (hps : ' ' ∉ p) (hrs : ' ' ∉ rest) : words (p ++ ' ' :: rest) = [p, rest] := by
  have hlp : 0 < p.length := List.length_pos.mpr hp
  have hlr : 0 < rest.length := List.length_pos.mpr hr
  simp [words, splitSpace, splitAux_append_sep ' ' [] p rest hps,
    splitAux_of_not_mem ' ' [] rest hrs, hlp, hlr]

/-- A literal replacement with a non-empty text keeps a string non-empty. -/
theorem replaceAll_ne_nil (pat rep s : List Char) (hs : s ≠ []) (hrep : rep ≠ []) :
    replaceAll pat rep s ≠ [] := by
  cases s with
  | nil => exact absurd rfl hs
  | cons c cs =>
    rw [replaceAll, replaceAllAux]
    split
    · simp [hrep]
    · simp

/-- A whole-word replacement with a non-empty text keeps a string non-empty. -/
theorem replaceWord_ne_nil (pat rep s : List Char) (hs : s ≠ []) (hrep : rep ≠ []) :
    replaceWord pat rep s ≠ [] := by
  cases s with
  | nil => exact absurd rfl hs
  | cons c cs =>
    rw [replaceWord, replaceWordAux]
    split
    · simp [hrep]
    · simp

/-- The loop of literal replacements keeps a string non-empty. -/
theorem EnhancedFuzzyMatcher.applyReplacements_ne_nil
    (table : List (List Char × List Char)) (s : List Char)
    (ht : ∀ e ∈ table, e.2 ≠ []) (hs : s ≠ []) :
    EnhancedFuzzyMatcher.applyReplacements table s ≠ [] := by
  induction table generalizing s with
  | nil => exact hs
  | cons e table ih =>
    simp only [EnhancedFuzzyMatcher.applyReplacements, List.foldl_cons]
    exact ih _ (fun e' he' => ht e' (List.mem_cons_of_mem e he'))
      (replaceAll_ne_nil e.1 e.2 s hs (ht e (List.mem_cons_self e table)))

/-- The loop of whole-word replacements keeps a string non-empty. -/
theorem EnhancedFuzzyMatcher.applyVariations_ne_nil
    (table : List (List Char × List Char)) (s : List Char)
    (ht : ∀ e ∈ table, e.2 ≠ []) (hs : s ≠ []) :
    EnhancedFuzzyMatcher.applyVariations table s ≠ [] := by
  induction table generalizing s with
  | nil => exact hs
  | cons e table ih =>
    simp only [EnhancedFuzzyMatcher.applyVariations, List.foldl_cons]
    exact ih _ (fun e' he' => ht e' (List.mem_cons_of_mem e he'))
      (replaceWord_ne_nil e.1 e.2 s hs (ht e (List.mem_cons_self e table)))

open EnhancedFuzzyMatcher in
/-- The enhanced normalizer on one word of ASCII letters: the steps before the
prefix step give the folded word, which is a non-empty word of lower-case
letters. -/
theorem EnhancedFuzzyMatcher.normalize_word (w : List Char) (hne : w ≠ [])
    (hletters : ∀ c ∈ w,
      (0x41 ≤ c.toNat ∧ c.toNat ≤ 0x5A) ∨ (0x61 ≤ c.toNat ∧ c.toNat ≤ 0x7A)) :
    normalizeArabicName (some w)
      = trim (collapseSpaces (normalizePrefix arabicPrefixes (foldedWord w))) ∧
    foldedWord w ≠ [] ∧ ∀ c ∈ foldedWord w, isLowerLetter c = true := by
  have hascii : isAscii w = true := by
    simp only [isAscii, List.all_eq_true, decide_eq_true_eq]
    intro c hc
    have := hletters c hc
    omega
  have hlow : ∀ c ∈ toLowerCase w, isLowerLetter c = true := by
    intro c hc
    simp only [toLowerCase, List.mem_map] at hc
    obtain ⟨a, ha, hac⟩ := hc
    have hn := toNat_lowerChar a
    have := hletters a ha
    rw [hac] at hn
    simp only [isLowerLetter, Bool.and_eq_true, decide_eq_true_eq]
    split at hn <;> omega
  have hlne : toLowerCase w ≠ [] := by
    cases w with
    | nil => exact absurd rfl hne
    | cons a t => simp [toLowerCase]
  have htr := transliterate_ascii w hascii
  have htrim : trim (toLowerCase w) = toLowerCase w :=
    trim_of_no_white _ (fun c hc => not_white_of_isLowerLetter c (hlow c hc))
  have hdia : removeDiacritics (toLowerCase w) = toLowerCase w :=
    removeDiacritics_of_settled _ (fun c hc => isSettled_of_isLowerLetter c (hlow c hc))
  have hemp : w.isEmpty = false := by
    cases w with
    | nil => exact absurd rfl hne
    | cons _ _ => rfl
  refine ⟨?_, ?_, ?_⟩
  · simp only [normalizeArabicName, hemp, Bool.false_eq_true, if_false]
    rw [normalizeSteps_eq, htr, htrim, hdia]
    rfl
  · exact applyVariations_ne_nil _ _ (by decide)
      (applyReplacements_ne_nil _ _ (by decide) hlne)
  · exact forall_applyVariations (fun c => isLowerLetter c = true) commonVariations _
      (by decide)
      (forall_applyReplacements (fun c => isLowerLetter c = true) replacements _
        (by decide) hlow)

open EnhancedFuzzyMatcher in
/-- The extent of the split of one word.  For an input of one word of ASCII
letters, the tokens of the normalized form are decided by the folded word (the
word after lower-casing and the two replacement loops): the code gives exactly
one token, the folded word, when it starts with no entry of the prefix list or
is itself the first entry it starts with; and it gives two tokens, that entry
and the remainder, when the folded word starts with an entry of the prefix
list and is longer.  Only words of the second kind are split. -/
theorem one_word_tokens (w : List Char) (hne : w ≠ [])
    (hletters : ∀ c ∈ w,
      (0x41 ≤ c.toNat ∧ c.toNat ≤ 0x5A) ∨ (0x61 ≤ c.toNat ∧ c.toNat ≤ 0x7A)) :
    ((∀ p ∈ arabicPrefixes, startsWith (foldedWord w) p = false) →
      words (normalizeArabicName (some w)) = [foldedWord w]) ∧
    (∀ p, arabicPrefixes.find? (startsWith (foldedWord w)) = some p → foldedWord w = p →
      words (normalizeArabicName (some w)) = [foldedWord w]) ∧
    (∀ p, arabicPrefixes.find? (startsWith (foldedWord w)) = some p → foldedWord w ≠ p →
      words (normalizeArabicName (some w)) = [p, (foldedWord w).drop p.length]) := by
  obtain ⟨hnorm, hfne, hfl⟩ := normalize_word w hne hletters
  have hnw : ∀ c ∈ foldedWord w, isWhiteSpace c = false :=
    fun c hc => not_white_of_isLowerLetter c (hfl c hc)
  have hnosp : ∀ t : List Char, (∀ c ∈ t, isLowerLetter c = true) → ' ' ∉ t :=
    fun t ht hsp => absurd (ht ' ' hsp) (by decide)
  have hone : words (foldedWord w) = [foldedWord w] :=
    words_of_no_space _ hfne (hnosp _ hfl)
  refine ⟨fun hpre => ?_, fun p hfind hfp => ?_, fun p hfind hfp => ?_⟩
  · have hnone : arabicPrefixes.find? (startsWith (foldedWord w)) = none := by
      rw [List.find?_eq_none]
      intro q hq
      rw [hpre q hq]
      exact Bool.false_ne_true
    rw [hnorm, normalizePrefix_eq_find, hnone]
    simp only []
    rw [collapseSpaces, collapseAux_of_isCollapsed false _
      (isCollapsed_append_space (foldedWord w) [] hnw (fun c hc => by cases hc)).2,
      trim_of_no_white _ hnw, hone]
  · have hpw : ∀ c ∈ p, isWhiteSpace c = false := fun c hc => hnw c (hfp ▸ hc)
    have hstrip : stripPrefix p = p := by
      rw [stripPrefix, List.filter_eq_self]
      intro c hc
      have hl := hfl c (hfp ▸ hc)
      have h1 : c ≠ '-' := fun h => absurd (h ▸ hl) (by decide)
      have h2 : c ≠ ' ' := fun h => absurd (h ▸ hl) (by decide)
      simp [h1, h2]
    have hdrop : (foldedWord w).drop p.length = [] := by rw [hfp]; simp
    have htp : trim (p ++ [' ']) = p := by
      have h1 := trim_of_no_white p hpw
      rw [trim_eq] at h1 ⊢
      have hpne : p ≠ [] := hfp ▸ hfne
      obtain ⟨c, t, hct⟩ := List.exists_cons_of_ne_nil hpne
      have hc : isWhiteSpace c = false := hpw c (by rw [hct]; exact List.mem_cons_self c t)
      rw [hct] at h1 ⊢
      rw [List.dropWhile_cons_of_neg (by simp [hc])] at h1
      rw [List.cons_append, List.dropWhile_cons_of_neg (by simp [hc]), ← List.cons_append,
        List.rdropWhile_concat_pos _ _ _ (by decide)]
      exact h1
    rw [hnorm, normalizePrefix_eq_find, hfind]
    simp only []
    rw [hstrip, hdrop]
    have htn : trim ([] : List Char) = [] := rfl
    rw [htn, collapseSpaces, collapseAux_of_isCollapsed false _
      (isCollapsed_append_space p [] hpw (fun c hc => by cases hc)).1, htp, ← hfp, hone]
  · have hstart : startsWith (foldedWord w) p = true := List.find?_some hfind
    rw [startsWith, List.isPrefixOf_iff_prefix] at hstart
    obtain ⟨rest, hrest⟩ := hstart
    have hrne : rest ≠ [] := by
      intro h0
      rw [h0, List.append_nil] at hrest
      exact hfp hrest.symm
    have hpl : ∀ c ∈ p, isLowerLetter c = true :=
      fun c hc => hfl c (hrest ▸ List.mem_append_left rest hc)
    have hrl : ∀ c ∈ rest, isLowerLetter c = true :=
      fun c hc => hfl c (hrest ▸ List.mem_append_right p hc)
    have hpw : ∀ c ∈ p, isWhiteSpace c = false :=
      fun c hc => not_white_of_isLowerLetter c (hpl c hc)
    have hrw : ∀ c ∈ rest, isWhiteSpace c = false :=
      fun c hc => not_white_of_isLowerLetter c (hrl c hc)
    have hpne : p ≠ [] := by
      have hall : ∀ q ∈ arabicPrefixes, q ≠ [] := by decide
      exact hall p (List.mem_of_find?_eq_some hfind)
    have hstrip : stripPrefix p = p := by
      rw [stripPrefix, List.filter_eq_self]
      intro c hc
      have hl := hpl c hc
      have h1 : c ≠ '-' := fun h => absurd (h ▸ hl) (by decide)
      have h2 : c ≠ ' ' := fun h => absurd (h ▸ hl) (by decide)
      simp [h1, h2]
    have hdrop : (foldedWord w).drop p.length = rest := by
      rw [← hrest, List.drop_left]
    have htrim2 : trim (p ++ ' ' :: rest) = p ++ ' ' :: rest := by
      obtain ⟨c, t, hct⟩ := List.exists_cons_of_ne_nil hpne
      have hrc := List.dropLast_append_getLast hrne
      have hc : isWhiteSpace c = false := hpw c (by rw [hct]; exact List.mem_cons_self c t)
      have hy : isWhiteSpace (rest.getLast hrne) = false := hrw _ (List.getLast_mem hrne)
      have hshape : p ++ ' ' :: rest
          = c :: ((t ++ ' ' :: rest.dropLast) ++ [rest.getLast hrne]) := by
        rw [hct, List.cons_append, List.append_assoc, List.cons_append, hrc]
      rw [hshape]
      exact trim_of_ends c _ _ hc hy
    rw [hnorm, normalizePrefix_eq_find, hfind]
    simp only []
    rw [hstrip, hdrop, trim_of_no_white rest hrw, collapseSpaces,
      collapseAux_of_isCollapsed false _ (isCollapsed_append_space p rest hpw hrw).1,
      htrim2, words_of_one_space p rest hpne hrne (hnosp p hpl) (hnosp rest hrl)]

open EnhancedFuzzyMatcher in
/-- The extent of the split at the words 'Fairuz', which stays one token, and
'Benzema', which is split into two. -/
theorem one_word_tokens_witness :
    words (normalizeArabicName (some "Fairuz".toList)) = ["fairuz".toList] ∧
    words (normalizeArabicName (some "Benzema".toList)) = ["ben".toList, "zema".toList] :=
  ⟨((one_word_tokens "Fairuz".toList (by decide) (by decide)).1 (by decide)).trans
      (by decide),
    ((one_word_tokens "Benzema".toList (by decide) (by decide)).2.2 "ben".toList
      (by decide) (by decide)).trans (by decide)⟩

end Machahir
